import Mathlib

/-
  Verification of the bazel-remote disk cache engine (src/cache/disk/disk.go)
  against its natural-language specification.

  The engine is shallowly embedded: the in-memory LRU index, the on-disk file
  store, and the optional upstream proxy are explicit pure data; every public
  operation (Put, Get, Contains, Stats, startup restoration, action-result
  validation) is a pure function from an engine state to a new engine state
  plus a result.  Filesystem and reader outcomes that the Go code observes
  through I/O (create/copy/fsync/close/rename success, the bytes a reader
  yields, proxy responses, protobuf parse results) are passed in as explicit
  oracle values, so a theorem quantifying over the oracle covers every I/O
  behaviour of the corresponding Go code path.
-/

set_option maxHeartbeats 1000000

namespace BazelRemote

/-- Blob kinds handled by the engine.  The `cache.EntryKind` enumeration lives
in the `cache` package, which is referenced from `src/cache/disk/disk.go`;
its three values and their string tags (`cas`, `ac`, `raw`) are given by the
spec (§3, §6: `kind ∈ \x7bcas, ac, raw\x7d`). -/
inductive EntryKind
  | CAS
  | AC
  | RAW
deriving DecidableEq, Repr

/-- The path-component tag of a kind (`cache.EntryKind.String()` in Go). -/
def EntryKind.str : EntryKind → String
  | EntryKind.CAS => "cas"
  | EntryKind.AC => "ac"
  | EntryKind.RAW => "raw"

/-- `sha256HashStrSize = sha256.Size * 2` from disk.go: two hex characters
per byte of a 32-byte SHA-256, i.e. 64. -/
def sha256HashStrSize : Nat := 64

/-- `cacheKey(kind, hash)` from disk.go: `filepath.Join(kind.String(), hash[:2], hash)`. -/
def cacheKey (kind : EntryKind) (hash : String) : String :=
  kind.str ++ "/" ++ hash.take 2 ++ "/" ++ hash

/-- `lruItem` from disk.go: the value stored in the LRU index. -/
structure LruItem where
  size : Int
  committed : Bool
deriving DecidableEq, Repr

/-- First-match association-list lookup (the map access of the index and of
the modelled filesystem). -/
def lookupA {α : Type} : List (String × α) → String → Option α
  | [], _ => none
  | p :: rest, k => if p.1 = k then some p.2 else lookupA rest k

/-- Remove every binding of key `k` (map deletion on the modelled maps). -/
def eraseKeyA {α : Type} (l : List (String × α)) (k : String) : List (String × α) :=
  l.filter (fun p => decide (p.1 ≠ k))

/-- Insert/overwrite the binding of key `k` (map update on the modelled maps). -/
def setA {α : Type} (l : List (String × α)) (k : String) (v : α) : List (String × α) :=
  (k, v) :: eraseKeyA l k

/-- Modelled from the spec: the `SizedLRU` implementation (lru.go) is not
under src/ — only its call sites in disk.go are — so the index is modelled
from §4.1 of the spec.  `entries` is kept in LRU order: the front is the
eviction candidate, the back is the most-recently-used end. -/
structure SizedLRU where
  maxSize : Int
  currentSize : Int
  entries : List (String × LruItem)
deriving DecidableEq, Repr

/-- Pure lookup of a key's item, without the recency move. -/
def SizedLRU.lookup (l : SizedLRU) (k : String) : Option LruItem :=
  lookupA l.entries k

/-- Modelled from the spec (§4.1 `get`): if present, the entry moves to the
most-recently-used end and its value is returned. -/
def SizedLRU.get (l : SizedLRU) (k : String) : Option LruItem × SizedLRU :=
  match lookupA l.entries k with
  | none => (none, l)
  | some it => (some it, { l with entries := eraseKeyA l.entries k ++ [(k, it)] })

/-- Modelled from the spec (§4.1 `remove`): if present, subtracts the size and
deletes; the eviction callback is not invoked. -/
def SizedLRU.remove (l : SizedLRU) (k : String) : SizedLRU :=
  match lookupA l.entries k with
  | none => l
  | some it =>
      { l with currentSize := l.currentSize - it.size, entries := eraseKeyA l.entries k }

/-- Modelled from the spec (§4.1 `add`, eviction loop): while
`current_size + item.size() > max_size`, evict the least-recently-used entry.
Returns the remaining entries, the new current size, and the evicted entries
in eviction order (they are handed to the eviction callback). -/
def evictLoop (maxS sz : Int) : List (String × LruItem) → Int →
    List (String × LruItem) × Int × List (String × LruItem)
  | [], cur => ([], cur, [])
  | e :: rest, cur =>
      if maxS < cur + sz then
        let r := evictLoop maxS sz rest (cur - e.2.size)
        (r.1, r.2.1, e :: r.2.2)
      else (e :: rest, cur, [])

/-- Modelled from the spec (§4.1 `add`): an existing entry for the key is
removed first (no callback), the eviction loop runs, and the add fails
without inserting when the item alone exceeds `max_size`; otherwise the item
is inserted at the most-recently-used end.  Returns
(success, new index, evicted entries for the callback). -/
def SizedLRU.add (l : SizedLRU) (k : String) (it : LruItem) :
    Bool × SizedLRU × List (String × LruItem) :=
  let l1 := l.remove k
  let r := evictLoop l1.maxSize it.size l1.entries l1.currentSize
  if l.maxSize < it.size then
    (false, { l1 with entries := r.1, currentSize := r.2.1 }, r.2.2)
  else
    (true, { l1 with entries := r.1 ++ [(k, it)], currentSize := r.2.1 + it.size }, r.2.2)

/-- The in-place `newItem.committed = true` mutation performed by Put's
deferred commit (disk.go line 299): the entry's flag is flipped without
changing its position or the current size. -/
def SizedLRU.setCommitted (l : SizedLRU) (k : String) : SizedLRU :=
  { l with entries := l.entries.map (fun p => if p.1 = k then (p.1, { p.2 with committed := true }) else p) }

/-- Result of a proxy `Get` call (`cache.CacheProxy.Get` in Go): an error, a
nil reader (missing), or a body together with the size the proxy declared. -/
inductive ProxyGetRes
  | fail
  | missing
  | body (bytes : List Nat) (declaredSize : Int)
deriving DecidableEq, Repr

/-- The abstract upstream proxy collaborator (spec §4.5): pure response
functions standing for `proxy.Get` and `proxy.Contains`. -/
structure ProxyModel where
  getRes : EntryKind → String → ProxyGetRes
  containsRes : EntryKind → String → Bool × Int

/-- The engine state: the LRU index, the files under the cache root keyed by
their relative path (final files at `cacheKey`, temp files at
`cacheKey ++ ".tmp"`), and the optional proxy (`DiskCache` in disk.go). -/
structure DiskCache where
  lru : SizedLRU
  disk : List (String × List Nat)
  proxy : Option ProxyModel

/-- The eviction callback `onEvict` from disk.go `New`: a committed item's
final file is unlinked; for an uncommitted item both the `.tmp` sibling and
the final file are attempted. -/
def applyEvictions (disk : List (String × List Nat)) :
    List (String × LruItem) → List (String × List Nat)
  | [] => disk
  | e :: rest =>
      applyEvictions
        (if e.2.committed then eraseKeyA disk e.1
         else eraseKeyA (eraseKeyA disk (e.1 ++ ".tmp")) e.1) rest

/-- The distinct error return sites of the engine (each constructor stands
for one `return err`/`fmt.Errorf` site in disk.go). -/
inductive CacheErr
  | invalidHash
  | tooBig
  | createErr
  | copyErr
  | hashMismatch
  | syncErr
  | closeErr
  | sizeMismatch
  | renameErr
  | statErr
  | proxyErr
  | parseErr
  | treeSizeMismatch
deriving DecidableEq, Repr

/-- `Contains` from disk.go: committed entries report `(true, size)`;
otherwise, when a proxy is configured the call is delegated to
`proxy.Contains`, else `(false, -1)` is reported.  The index lookup moves the
entry to the most-recently-used end. -/
def Contains (c : DiskCache) (kind : EntryKind) (hash : String) :
    DiskCache × Bool × Int :=
  if hash.length ≠ sha256HashStrSize then (c, false, -1)
  else
    let r := c.lru.get (cacheKey kind hash)
    let c1 : DiskCache := { c with lru := r.2 }
    match r.1 with
    | some it =>
        if it.committed then (c1, true, it.size)
        else
          match c.proxy with
          | some p => (c1, p.containsRes kind hash)
          | none => (c1, false, -1)
    | none =>
        match c.proxy with
        | some p => (c1, p.containsRes kind hash)
        | none => (c1, false, -1)

/-- `Stats` from disk.go: `(lru.CurrentSize(), lru.Len())`. -/
def Stats (c : DiskCache) : Int × Nat :=
  (c.lru.currentSize, c.lru.entries.length)

/-- `MaxSize` from disk.go. -/
def MaxSize (c : DiskCache) : Int :=
  c.lru.maxSize

/-- Outcome of Put's admission phase (the first mutex-guarded section of
disk.go `Put`, lines 252-289). -/
inductive PutAdmitRes
  | invalid
  | drained
  | tooBig
  | admitted
deriving DecidableEq, Repr

/-- The `lru.Add` of a fresh uncommitted entry inside Put's admission,
together with the eviction callback's file removals. -/
def putAdd (c : DiskCache) (key : String) (expectedSize : Int) :
    DiskCache × PutAdmitRes :=
  let a := c.lru.add key { size := expectedSize, committed := false }
  let c2 : DiskCache := { c with lru := a.2.1, disk := applyEvictions c.disk a.2.2 }
  if a.1 then (c2, PutAdmitRes.admitted) else (c2, PutAdmitRes.tooBig)

/-- Put's admission phase (disk.go lines 252-289): the length check, the
dedup of an in-flight upload (drain and succeed), and the insertion of the
uncommitted entry. -/
def putAdmit (c : DiskCache) (kind : EntryKind) (hash : String) (expectedSize : Int) :
    DiskCache × PutAdmitRes :=
  if hash.length ≠ sha256HashStrSize then (c, PutAdmitRes.invalid)
  else
    let key := cacheKey kind hash
    let r := c.lru.get key
    let c1 : DiskCache := { c with lru := r.2 }
    match r.1 with
    | some it =>
        if it.committed then putAdd c1 key expectedSize
        else (c1, PutAdmitRes.drained)
    | none => putAdd c1 key expectedSize

/-- The I/O outcomes Put's body observes: success of `os.Create`, of the
`io.Copy` (with `bytes` the bytes the reader yielded and the temp file
holds), of `Sync`, `Close`, and `os.Rename`. -/
structure PutFx where
  createOk : Bool
  copyOk : Bool
  bytes : List Nat
  syncOk : Bool
  closeOk : Bool
  renameOk : Bool
deriving DecidableEq, Repr

/-- The state restored by Put's deferred cleanup when the upload did not
commit (disk.go lines 296-327): the uncommitted index entry is removed and,
when the temp file had been created, it is unlinked. -/
def putCleanup (c : DiskCache) (key : String) (tmpCreated : Bool) : DiskCache :=
  { c with lru := c.lru.remove key,
           disk := if tmpCreated then eraseKeyA c.disk (key ++ ".tmp") else c.disk }

/-- Put's body after admission (disk.go lines 294-367): create the temp
file, copy (hashing for CAS), verify hash and size, fsync, close, rename,
and either commit the entry or roll back.  `hashFn` stands for the streamed
`sha256` + `hex.EncodeToString` computation. -/
def putBody (hashFn : List Nat → String) (c : DiskCache) (kind : EntryKind)
    (hash : String) (expectedSize : Int) (fx : PutFx) : DiskCache × Option CacheErr :=
  let key := cacheKey kind hash
  if fx.createOk = false then (putCleanup c key false, some CacheErr.createErr)
  else
    let cw : DiskCache := { c with disk := setA c.disk (key ++ ".tmp") fx.bytes }
    if fx.copyOk = false then (putCleanup cw key true, some CacheErr.copyErr)
    else if kind = EntryKind.CAS ∧ hashFn fx.bytes ≠ hash then
      (putCleanup cw key true, some CacheErr.hashMismatch)
    else if fx.syncOk = false then (putCleanup cw key true, some CacheErr.syncErr)
    else if fx.closeOk = false then (putCleanup cw key true, some CacheErr.closeErr)
    else if (fx.bytes.length : Int) ≠ expectedSize then
      (putCleanup cw key true, some CacheErr.sizeMismatch)
    else if fx.renameOk then
      ({ cw with lru := cw.lru.setCommitted key,
                 disk := setA (eraseKeyA cw.disk (key ++ ".tmp")) key fx.bytes }, none)
    else (putCleanup cw key true, some CacheErr.renameErr)

/-- `Put` from disk.go: admission followed by the upload body.  The proxy
write-through after a commit is fire-and-forget and does not change the
local state. -/
def Put (hashFn : List Nat → String) (c : DiskCache) (kind : EntryKind)
    (hash : String) (expectedSize : Int) (fx : PutFx) : DiskCache × Option CacheErr :=
  match putAdmit c kind hash expectedSize with
  | (c1, PutAdmitRes.invalid) => (c1, some CacheErr.invalidHash)
  | (c1, PutAdmitRes.drained) => (c1, none)
  | (c1, PutAdmitRes.tooBig) => (c1, some CacheErr.tooBig)
  | (c1, PutAdmitRes.admitted) => putBody hashFn c1 kind hash expectedSize fx

/-- The I/O outcomes of Get's proxy-download path (disk.go lines 445-525):
success of `os.Create`, `io.Copy`, `Sync`, `Close`, `os.Rename`, and of the
final re-open of the committed file. -/
structure GetFx where
  createOk : Bool
  copyOk : Bool
  syncOk : Bool
  closeOk : Bool
  renameOk : Bool
  reopenOk : Bool
deriving DecidableEq, Repr

/-- The `(io.ReadCloser, int64, error)` triple Get returns: the reader is
modelled by the bytes it would yield. -/
structure GetResult where
  data : Option (List Nat)
  size : Int
  err : Option CacheErr
deriving DecidableEq, Repr

/-- `availableOrTryProxy` from disk.go: `available` is true for a committed
entry; when no entry exists and a proxy is configured a zero-sized
uncommitted placeholder is reserved and `tryProxy` reports whether the
reservation succeeded. -/
def availableOrTryProxy (c : DiskCache) (key : String) : DiskCache × Bool × Bool :=
  let r := c.lru.get key
  match r.1 with
  | some it => ({ c with lru := r.2 }, it.committed, false)
  | none =>
      match c.proxy with
      | some _ =>
          let a := r.2.add key { size := 0, committed := false }
          ({ c with lru := a.2.1, disk := applyEvictions c.disk a.2.2 }, false, a.1)
      | none => ({ c with lru := r.2 }, false, false)

/-- The state restored when Get's proxy download aborts after the temp file
was created: the placeholder is removed and the temp file unlinked. -/
def getCleanup (c : DiskCache) (key : String) : DiskCache :=
  { c with lru := c.lru.remove key, disk := eraseKeyA c.disk (key ++ ".tmp") }

/-- Get's proxy-download path (disk.go lines 445-525): query the proxy,
stream the body to the temp file, verify the written count against the
declared size, fsync, close, rename, replace the placeholder by a committed
entry via a re-`Add` (the callback may evict), and re-open the final file. -/
def getProxyFetch (c : DiskCache) (p : ProxyModel) (kind : EntryKind)
    (hash key : String) (fx : GetFx) : DiskCache × GetResult :=
  match p.getRes kind hash with
  | ProxyGetRes.fail => ({ c with lru := c.lru.remove key }, ⟨none, -1, some CacheErr.proxyErr⟩)
  | ProxyGetRes.missing => ({ c with lru := c.lru.remove key }, ⟨none, -1, none⟩)
  | ProxyGetRes.body bs declared =>
      if fx.createOk = false then
        ({ c with lru := c.lru.remove key }, ⟨none, -1, some CacheErr.createErr⟩)
      else
        let cw : DiskCache := { c with disk := setA c.disk (key ++ ".tmp") bs }
        if fx.copyOk = false then (getCleanup cw key, ⟨none, -1, some CacheErr.copyErr⟩)
        else if (bs.length : Int) ≠ declared then (getCleanup cw key, ⟨none, -1, none⟩)
        else if fx.syncOk = false then (getCleanup cw key, ⟨none, -1, some CacheErr.syncErr⟩)
        else if fx.closeOk = false then (getCleanup cw key, ⟨none, -1, some CacheErr.closeErr⟩)
        else if fx.renameOk then
          let renamed := setA (eraseKeyA cw.disk (key ++ ".tmp")) key bs
          let a := cw.lru.add key { size := declared, committed := true }
          let cc : DiskCache := { cw with lru := a.2.1, disk := applyEvictions renamed a.2.2 }
          if fx.reopenOk then (cc, ⟨some bs, declared, none⟩)
          else (cc, ⟨none, -1, some CacheErr.statErr⟩)
        else (getCleanup cw key, ⟨none, -1, some CacheErr.renameErr⟩)

/-- `Get` from disk.go: length check, `availableOrTryProxy`, then either the
local read of the committed file (the size reported is the file's size from
`os.Stat`) or the proxy read-through. -/
def Get (c : DiskCache) (kind : EntryKind) (hash : String) (fx : GetFx) :
    DiskCache × GetResult :=
  if hash.length ≠ sha256HashStrSize then (c, ⟨none, -1, some CacheErr.invalidHash⟩)
  else
    let key := cacheKey kind hash
    let r := availableOrTryProxy c key
    if r.2.1 then
      match lookupA r.1.disk key with
      | some bs => (r.1, ⟨some bs, (bs.length : Int), none⟩)
      | none => (r.1, ⟨none, -1, some CacheErr.statErr⟩)
    else if r.2.2 then
      match r.1.proxy with
      | some p => getProxyFetch r.1 p kind hash key fx
      | none => (r.1, ⟨none, -1, none⟩)
    else (r.1, ⟨none, -1, none⟩)

/-- One step of `loadExistingFiles` (disk.go lines 231-243): `lru.Add` of a
committed entry for a walked file; when the add fails the file is deleted. -/
def loadOne (c : DiskCache) (relPath : String) (size : Int) : DiskCache :=
  let a := c.lru.add relPath { size := size, committed := true }
  let d1 := applyEvictions c.disk a.2.2
  { c with lru := a.2.1, disk := if a.1 then d1 else eraseKeyA d1 relPath }

/-- `loadExistingFiles` from disk.go: the walked files, already sorted by
access time ascending, are fed into the index as committed entries. -/
def loadFiles (c : DiskCache) : List (String × Int) → DiskCache
  | [] => c
  | f :: rest => loadFiles (loadOne c f.1 f.2) rest

/-- `New` from disk.go, after directory creation and migration: an empty
index of capacity `maxSizeBytes` restored from the walked files `existing`
(pairs of relative path and file size, in access-time order) over the
initial file store `disk0`. -/
def newEngine (maxSizeBytes : Int) (proxy : Option ProxyModel)
    (disk0 : List (String × List Nat)) (existing : List (String × Int)) : DiskCache :=
  loadFiles { lru := { maxSize := maxSizeBytes, currentSize := 0, entries := [] },
              disk := disk0, proxy := proxy } existing

/-- The RE-API `Digest` message fields walked by the validator. -/
structure PBDigest where
  hash : String
  sizeBytes : Int
deriving DecidableEq, Repr

/-- The `OutputFile` fields walked by the validator (`contents`, `digest`). -/
structure PBOutputFile where
  contents : List Nat
  digest : PBDigest
deriving DecidableEq, Repr

/-- The `OutputDirectory` field walked by the validator (`tree_digest`). -/
structure PBOutputDirectory where
  treeDigest : PBDigest
deriving DecidableEq, Repr

/-- A file node inside a `Tree` directory; its digest may be absent
(`f.Digest == nil` is skipped by the validator). -/
structure PBFileNode where
  digest : Option PBDigest
deriving DecidableEq, Repr

/-- A `Directory` message: only its file list is walked. -/
structure PBDirectory where
  files : List PBFileNode
deriving DecidableEq, Repr

/-- A `Tree` message: the root directory (a nil root yields no files via the
`GetFiles` accessor) and the child directories. -/
structure PBTree where
  root : Option PBDirectory
  children : List PBDirectory
deriving DecidableEq, Repr

/-- `tree.Root.GetFiles()`: the nil-safe accessor of the root's files. -/
def PBTree.rootFiles (t : PBTree) : List PBFileNode :=
  match t.root with
  | none => []
  | some d => d.files

/-- The `ActionResult` fields walked by the validator. -/
structure PBActionResult where
  outputFiles : List PBOutputFile
  outputDirectories : List PBOutputDirectory
  stdoutDigest : Option PBDigest
  stderrDigest : Option PBDigest
deriving DecidableEq, Repr

/-- The three-valued outcome of `GetValidatedActionResult`:
`(nil, nil, nil)` is `notFound`, `(result, acdata, nil)` is `ok`, and
`(nil, nil, err)` is `fail`. -/
inductive ValidateRes
  | notFound
  | ok (ar : PBActionResult) (raw : List Nat)
  | fail (e : CacheErr)
deriving DecidableEq, Repr

/-- The output-file loop of the validator (disk.go lines 613-620): each file
with empty inline contents and positive digest size must be present in the
CAS. -/
def checkOutputFiles (c : DiskCache) : List PBOutputFile → DiskCache × Bool
  | [] => (c, true)
  | f :: rest =>
      if f.contents = [] ∧ 0 < f.digest.sizeBytes then
        let r := Contains c EntryKind.CAS f.digest.hash
        if r.2.1 then checkOutputFiles r.1 rest else (r.1, false)
      else checkOutputFiles c rest

/-- The file loop over a `Tree` directory (disk.go lines 650-658 and
661-669): nil digests are skipped, every other digest must be present. -/
def checkFileNodes (c : DiskCache) : List PBFileNode → DiskCache × Bool
  | [] => (c, true)
  | fn :: rest =>
      match fn.digest with
      | none => checkFileNodes c rest
      | some d =>
          let r := Contains c EntryKind.CAS d.hash
          if r.2.1 then checkFileNodes r.1 rest else (r.1, false)

/-- The loop over a `Tree`'s child directories. -/
def checkChildDirs (c : DiskCache) : List PBDirectory → DiskCache × Bool
  | [] => (c, true)
  | d :: rest =>
      let r := checkFileNodes c d.files
      if r.2 then checkChildDirs r.1 rest else (r.1, false)

/-- Intermediate outcome of the output-directory loop. -/
inductive StepRes
  | ok
  | notFound
  | fail (e : CacheErr)
deriving DecidableEq, Repr

/-- The output-directory loop of the validator (disk.go lines 622-671):
fetch each referenced `Tree` blob from the CAS (a nil reader is a miss, an
error propagates), verify the declared size, parse it, and check every file
digest of the root and of every child. -/
def checkOutputDirs (parseTree : List Nat → Option PBTree) (gfx : GetFx)
    (c : DiskCache) : List PBOutputDirectory → DiskCache × StepRes
  | [] => (c, StepRes.ok)
  | d :: rest =>
      let r := Get c EntryKind.CAS d.treeDigest.hash gfx
      match r.2.data with
      | none =>
          match r.2.err with
          | none => (r.1, StepRes.notFound)
          | some e => (r.1, StepRes.fail e)
      | some bs =>
          match r.2.err with
          | some e => (r.1, StepRes.fail e)
          | none =>
              if r.2.size ≠ d.treeDigest.sizeBytes then (r.1, StepRes.fail CacheErr.treeSizeMismatch)
              else
                match parseTree bs with
                | none => (r.1, StepRes.fail CacheErr.parseErr)
                | some tree =>
                    let rr := checkFileNodes r.1 tree.rootFiles
                    if rr.2 then
                      let rc := checkChildDirs rr.1 tree.children
                      if rc.2 then checkOutputDirs parseTree gfx rc.1 rest
                      else (rc.1, StepRes.notFound)
                    else (rr.1, StepRes.notFound)

/-- The stdout/stderr digest check of the validator (disk.go lines 673-685):
a present digest with positive size must be in the CAS. -/
def checkStdDigest (c : DiskCache) : Option PBDigest → DiskCache × Bool
  | none => (c, true)
  | some d =>
      if 0 < d.sizeBytes then
        let r := Contains c EntryKind.CAS d.hash
        (r.1, r.2.1)
      else (c, true)

/-- `GetValidatedActionResult` from disk.go: fetch the AC blob, parse it
(`parseAR` stands for `proto.Unmarshal` into an `ActionResult`, `parseTree`
for unmarshalling a `Tree`), then run the four referent checks in order. -/
def GetValidatedActionResult (parseAR : List Nat → Option PBActionResult)
    (parseTree : List Nat → Option PBTree) (gfx : GetFx) (c : DiskCache)
    (hash : String) : DiskCache × ValidateRes :=
  let r := Get c EntryKind.AC hash gfx
  match r.2.err with
  | some e => (r.1, ValidateRes.fail e)
  | none =>
      match r.2.data with
      | none => (r.1, ValidateRes.notFound)
      | some acdata =>
          if r.2.size ≤ 0 then (r.1, ValidateRes.notFound)
          else
            match parseAR acdata with
            | none => (r.1, ValidateRes.fail CacheErr.parseErr)
            | some ar =>
                let r1 := checkOutputFiles r.1 ar.outputFiles
                if r1.2 then
                  let r2 := checkOutputDirs parseTree gfx r1.1 ar.outputDirectories
                  match r2.2 with
                  | StepRes.fail e => (r2.1, ValidateRes.fail e)
                  | StepRes.notFound => (r2.1, ValidateRes.notFound)
                  | StepRes.ok =>
                      let r3 := checkStdDigest r2.1 ar.stdoutDigest
                      if r3.2 then
                        let r4 := checkStdDigest r3.1 ar.stderrDigest
                        if r4.2 then (r4.1, ValidateRes.ok ar acdata)
                        else (r4.1, ValidateRes.notFound)
                      else (r3.1, ValidateRes.notFound)
                else (r1.1, ValidateRes.notFound)

/-- Modelled from the spec: the "length-64 and hex-charset check" of §3.
The engine's own code performs only the length check; this definition
follows the spec's words and is compared against the code's behaviour. -/
def specHexDigest (s : String) : Bool :=
  s.length == 64 && s.toList.all (fun ch => ch.isDigit || (ch ≥ 'a' && ch ≤ 'f'))

/-- The sum of the sizes of the index entries. -/
def sumSizes (es : List (String × LruItem)) : Int :=
  (es.map (fun p => p.2.size)).sum

/-- The keys of the index entries, in order. -/
def keysOf (es : List (String × LruItem)) : List String :=
  es.map (fun p => p.1)

/-- The index invariant: the accounted current size equals the sum of the
entry sizes, it never exceeds the maximum, the capacity and every entry size
are non-negative, and keys are unique (the index is a map). -/
def SizedLRU.Inv (l : SizedLRU) : Prop :=
  l.currentSize = sumSizes l.entries ∧
  l.currentSize ≤ l.maxSize ∧
  0 ≤ l.maxSize ∧
  (∀ p ∈ l.entries, 0 ≤ p.2.size) ∧
  (keysOf l.entries).Nodup

/-! ### Association-list lemmas -/

theorem lookupA_cons {α : Type} (p : String × α) (rest : List (String × α)) (k : String) :
    lookupA (p :: rest) k = if p.1 = k then some p.2 else lookupA rest k := rfl

theorem lookupA_eq_none_of {α : Type} (l : List (String × α)) (k : String)
    (h : ∀ p ∈ l, p.1 ≠ k) : lookupA l k = none := by
  induction l with
  | nil => rfl
  | cons p rest ih =>
      rw [lookupA_cons, if_neg (h p (List.mem_cons_self p rest))]
      exact ih (fun q hq => h q (List.mem_cons_of_mem p hq))

theorem ne_of_lookupA_eq_none {α : Type} (l : List (String × α)) (k : String)
    (h : lookupA l k = none) : ∀ p ∈ l, p.1 ≠ k := by
  induction l with
  | nil => intro p hp; cases hp
  | cons p rest ih =>
      intro q hq
      rw [lookupA_cons] at h
      by_cases hpk : p.1 = k
      · rw [if_pos hpk] at h; cases h
      · rw [if_neg hpk] at h
        cases hq with
        | head => exact hpk
        | tail _ hq2 => exact ih h q hq2

theorem mem_of_lookupA_eq_some {α : Type} (l : List (String × α)) (k : String) (v : α)
    (h : lookupA l k = some v) : (k, v) ∈ l := by
  induction l with
  | nil => cases h
  | cons p rest ih =>
      rw [lookupA_cons] at h
      by_cases hpk : p.1 = k
      · rw [if_pos hpk] at h
        cases h
        have : p = (k, p.2) := by cases p; simp_all
        rw [← this]; exact List.mem_cons_self p rest
      · rw [if_neg hpk] at h
        exact List.mem_cons_of_mem p (ih h)

theorem not_mem_keys_eraseKeyA {α : Type} (l : List (String × α)) (k : String) :
    ∀ p ∈ eraseKeyA l k, p.1 ≠ k := by
  intro p hp
  have := List.of_mem_filter hp
  simpa using this

theorem lookupA_eraseKeyA_self {α : Type} (l : List (String × α)) (k : String) :
    lookupA (eraseKeyA l k) k = none :=
  lookupA_eq_none_of _ _ (not_mem_keys_eraseKeyA l k)

theorem lookupA_eraseKeyA_ne {α : Type} (l : List (String × α)) (k k' : String)
    (h : k' ≠ k) : lookupA (eraseKeyA l k) k' = lookupA l k' := by
  induction l with
  | nil => rfl
  | cons p rest ih =>
      by_cases hpk : p.1 = k
      · have : eraseKeyA (p :: rest) k = eraseKeyA rest k := by
          simp [eraseKeyA, List.filter, hpk]
        rw [this, ih, lookupA_cons, if_neg (by rw [hpk]; exact fun he => h he.symm)]
      · have : eraseKeyA (p :: rest) k = p :: eraseKeyA rest k := by
          simp [eraseKeyA, List.filter, hpk]
        rw [this, lookupA_cons, lookupA_cons, ih]

theorem eraseKeyA_of_lookupA_none {α : Type} (l : List (String × α)) (k : String)
    (h : lookupA l k = none) : eraseKeyA l k = l := by
  have hne := ne_of_lookupA_eq_none l k h
  induction l with
  | nil => rfl
  | cons p rest ih =>
      have hp : p.1 ≠ k := hne p (List.mem_cons_self p rest)
      have : eraseKeyA (p :: rest) k = p :: eraseKeyA rest k := by
        simp [eraseKeyA, List.filter, hp]
      rw [this, ih]
      · rw [lookupA_cons, if_neg hp] at h; exact h
      · intro q hq; exact hne q (List.mem_cons_of_mem p hq)

theorem eraseKeyA_append {α : Type} (l1 l2 : List (String × α)) (k : String) :
    eraseKeyA (l1 ++ l2) k = eraseKeyA l1 k ++ eraseKeyA l2 k := by
  simp [eraseKeyA, List.filter_append]

theorem lookupA_append_left {α : Type} (l1 l2 : List (String × α)) (k : String) (v : α)
    (h : lookupA l1 k = some v) : lookupA (l1 ++ l2) k = some v := by
  induction l1 with
  | nil => cases h
  | cons p rest ih =>
      rw [List.cons_append, lookupA_cons] at *
      by_cases hpk : p.1 = k
      · rw [if_pos hpk] at h ⊢; exact h
      · rw [if_neg hpk] at h ⊢; exact ih h

theorem lookupA_append_right {α : Type} (l1 l2 : List (String × α)) (k : String)
    (h : lookupA l1 k = none) : lookupA (l1 ++ l2) k = lookupA l2 k := by
  induction l1 with
  | nil => rfl
  | cons p rest ih =>
      rw [lookupA_cons] at h
      by_cases hpk : p.1 = k
      · rw [if_pos hpk] at h; cases h
      · rw [if_neg hpk] at h
        show lookupA (p :: (rest ++ l2)) k = lookupA l2 k
        rw [lookupA_cons, if_neg hpk]; exact ih h

theorem lookupA_setA_self {α : Type} (l : List (String × α)) (k : String) (v : α) :
    lookupA (setA l k v) k = some v := by
  show lookupA ((k, v) :: eraseKeyA l k) k = some v
  rw [lookupA_cons, if_pos rfl]

theorem lookupA_setA_ne {α : Type} (l : List (String × α)) (k k' : String) (v : α)
    (h : k' ≠ k) : lookupA (setA l k v) k' = lookupA l k' := by
  show lookupA ((k, v) :: eraseKeyA l k) k' = lookupA l k'
  rw [lookupA_cons, if_neg (fun he => h he.symm), lookupA_eraseKeyA_ne l k k' h]

/-! ### Size-sum and key lemmas -/

theorem sumSizes_nil : sumSizes [] = 0 := rfl

theorem sumSizes_cons (p : String × LruItem) (rest : List (String × LruItem)) :
    sumSizes (p :: rest) = p.2.size + sumSizes rest := by
  simp [sumSizes]

theorem sumSizes_append (l1 l2 : List (String × LruItem)) :
    sumSizes (l1 ++ l2) = sumSizes l1 + sumSizes l2 := by
  simp [sumSizes]

theorem sumSizes_nonneg (l : List (String × LruItem)) (h : ∀ p ∈ l, 0 ≤ p.2.size) :
    0 ≤ sumSizes l := by
  induction l with
  | nil => simp [sumSizes]
  | cons p rest ih =>
      rw [sumSizes_cons]
      have h1 := h p (List.mem_cons_self p rest)
      have h2 := ih (fun q hq => h q (List.mem_cons_of_mem p hq))
      omega

theorem keysOf_append (l1 l2 : List (String × LruItem)) :
    keysOf (l1 ++ l2) = keysOf l1 ++ keysOf l2 := by
  simp [keysOf]

theorem mem_keysOf {l : List (String × LruItem)} {k : String} :
    k ∈ keysOf l ↔ ∃ it, (k, it) ∈ l := by
  simp only [keysOf, List.mem_map]
  constructor
  · rintro ⟨p, hp, rfl⟩; exact ⟨p.2, by cases p; exact hp⟩
  · rintro ⟨it, hit⟩; exact ⟨(k, it), hit, rfl⟩

theorem keysOf_nodup_eraseKeyA (l : List (String × LruItem)) (k : String)
    (h : (keysOf l).Nodup) : (keysOf (eraseKeyA l k)).Nodup := by
  show (List.map (fun p => p.1) (List.filter _ l)).Nodup
  exact List.Nodup.sublist (List.Sublist.map _ (List.filter_sublist l)) h

/-- Decomposition of an association list with unique keys at a found key:
the list splits around the unique binding, and erasing the key removes
exactly that binding. -/
theorem eraseKeyA_decomp (l : List (String × LruItem)) (k : String) (it : LruItem)
    (hnd : (keysOf l).Nodup) (hl : lookupA l k = some it) :
    ∃ l1 l2, l = l1 ++ (k, it) :: l2 ∧ eraseKeyA l k = l1 ++ l2 := by
  induction l with
  | nil => cases hl
  | cons p rest ih =>
      rw [lookupA_cons] at hl
      by_cases hpk : p.1 = k
      · rw [if_pos hpk] at hl
        have hp : p = (k, it) := by
          cases p; cases hl; simp_all
        have hnc : (p.1 :: keysOf rest).Nodup := hnd
        have hknotin : k ∉ keysOf rest := by
          have := (List.nodup_cons.mp hnc).1
          rw [hpk] at this; exact this
        have hrest : lookupA rest k = none := by
          apply lookupA_eq_none_of
          intro q hq he
          exact hknotin (mem_keysOf.mpr ⟨q.2, by rw [← he]; cases q; exact hq⟩)
        refine ⟨[], rest, by rw [hp]; rfl, ?_⟩
        have : eraseKeyA (p :: rest) k = eraseKeyA rest k := by
          simp [eraseKeyA, List.filter, hpk]
        rw [this, eraseKeyA_of_lookupA_none rest k hrest]; rfl
      · rw [if_neg hpk] at hl
        have hnc : (p.1 :: keysOf rest).Nodup := hnd
        have hnd2 : (keysOf rest).Nodup := (List.nodup_cons.mp hnc).2
        obtain ⟨l1, l2, he1, he2⟩ := ih hnd2 hl
        refine ⟨p :: l1, l2, by rw [List.cons_append, ← he1], ?_⟩
        have : eraseKeyA (p :: rest) k = p :: eraseKeyA rest k := by
          simp [eraseKeyA, List.filter, hpk]
        rw [this, he2]; rfl

theorem sumSizes_eraseKeyA (l : List (String × LruItem)) (k : String) (it : LruItem)
    (hnd : (keysOf l).Nodup) (hl : lookupA l k = some it) :
    sumSizes (eraseKeyA l k) = sumSizes l - it.size := by
  obtain ⟨l1, l2, he1, he2⟩ := eraseKeyA_decomp l k it hnd hl
  rw [he2, he1, sumSizes_append, sumSizes_append, sumSizes_cons]
  ring

theorem length_eraseKeyA (l : List (String × LruItem)) (k : String) (it : LruItem)
    (hnd : (keysOf l).Nodup) (hl : lookupA l k = some it) :
    (eraseKeyA l k).length + 1 = l.length := by
  obtain ⟨l1, l2, he1, he2⟩ := eraseKeyA_decomp l k it hnd hl
  rw [he2, he1]; simp; omega

/-! ### SizedLRU operation lemmas -/

theorem SizedLRU.get_fst (l : SizedLRU) (k : String) :
    (l.get k).1 = l.lookup k := by
  unfold SizedLRU.get SizedLRU.lookup
  cases lookupA l.entries k <;> rfl

theorem SizedLRU.get_maxSize (l : SizedLRU) (k : String) :
    (l.get k).2.maxSize = l.maxSize := by
  unfold SizedLRU.get
  cases lookupA l.entries k <;> rfl

theorem SizedLRU.get_currentSize (l : SizedLRU) (k : String) :
    (l.get k).2.currentSize = l.currentSize := by
  unfold SizedLRU.get
  cases lookupA l.entries k <;> rfl

theorem SizedLRU.get_lookup (l : SizedLRU) (k k' : String) :
    (l.get k).2.lookup k' = l.lookup k' := by
  unfold SizedLRU.get SizedLRU.lookup
  cases hlk : lookupA l.entries k with
  | none => rfl
  | some it =>
      show lookupA (eraseKeyA l.entries k ++ [(k, it)]) k' = lookupA l.entries k'
      by_cases hk : k' = k
      · subst hk
        rw [lookupA_append_right _ _ _ (lookupA_eraseKeyA_self l.entries k')]
        simp [lookupA, hlk]
      · cases hlk2 : lookupA l.entries k' with
        | none =>
            rw [lookupA_append_right _ _ _ (by rw [lookupA_eraseKeyA_ne l.entries k k' hk]; exact hlk2)]
            show (if k = k' then some it else lookupA [] k') = none
            rw [if_neg (fun he => hk he.symm)]
            rfl
        | some it2 =>
            apply lookupA_append_left
            rw [lookupA_eraseKeyA_ne l.entries k k' hk]; exact hlk2

theorem SizedLRU.get_mem (l : SizedLRU) (k : String) :
    ∀ p ∈ (l.get k).2.entries, p ∈ l.entries := by
  unfold SizedLRU.get
  cases hlk : lookupA l.entries k with
  | none => intro p hp; exact hp
  | some it =>
      intro p hp
      simp only at hp
      rcases List.mem_append.mp hp with h1 | h1
      · exact List.mem_of_mem_filter h1
      · rw [List.mem_singleton.mp h1]
        exact mem_of_lookupA_eq_some l.entries k it hlk

theorem SizedLRU.get_Inv (l : SizedLRU) (k : String) (h : l.Inv) : (l.get k).2.Inv := by
  obtain ⟨h1, h2, h3, h4, h5⟩ := h
  unfold SizedLRU.get
  cases hlk : lookupA l.entries k with
  | none => exact ⟨h1, h2, h3, h4, h5⟩
  | some it =>
      refine ⟨?_, by simpa using h2, h3, ?_, ?_⟩
      · show l.currentSize = sumSizes (eraseKeyA l.entries k ++ [(k, it)])
        rw [sumSizes_append, sumSizes_eraseKeyA l.entries k it h5 hlk, sumSizes_cons, sumSizes_nil, h1]
        ring
      · intro p hp
        simp only at hp
        rcases List.mem_append.mp hp with hm | hm
        · exact h4 p (List.mem_of_mem_filter hm)
        · rw [List.mem_singleton.mp hm]
          exact h4 (k, it) (mem_of_lookupA_eq_some l.entries k it hlk)
      · show (keysOf (eraseKeyA l.entries k ++ [(k, it)])).Nodup
        rw [keysOf_append]
        apply List.Nodup.append (keysOf_nodup_eraseKeyA l.entries k h5) (by simp [keysOf])
        intro s hs hs2
        have : s = k := by simpa [keysOf] using hs2
        subst this
        obtain ⟨it2, hit2⟩ := mem_keysOf.mp hs
        exact not_mem_keys_eraseKeyA l.entries s (s, it2) hit2 rfl

theorem SizedLRU.get_length (l : SizedLRU) (k : String) (it : LruItem)
    (hnd : (keysOf l.entries).Nodup) (hl : l.lookup k = some it) :
    (l.get k).2.entries.length = l.entries.length := by
  unfold SizedLRU.get
  unfold SizedLRU.lookup at hl
  rw [hl]
  show (eraseKeyA l.entries k ++ [(k, it)]).length = l.entries.length
  rw [List.length_append, List.length_singleton, length_eraseKeyA l.entries k it hnd hl]

theorem SizedLRU.get_entries_of_none (l : SizedLRU) (k : String)
    (hl : l.lookup k = none) : (l.get k).2 = l := by
  unfold SizedLRU.get
  unfold SizedLRU.lookup at hl
  rw [hl]

theorem evictLoop_spec (maxS sz : Int) : ∀ (es : List (String × LruItem)) (cur : Int),
    es = (evictLoop maxS sz es cur).2.2 ++ (evictLoop maxS sz es cur).1 ∧
    (evictLoop maxS sz es cur).2.1 = cur - sumSizes (evictLoop maxS sz es cur).2.2 ∧
    ((evictLoop maxS sz es cur).1 = [] ∨ (evictLoop maxS sz es cur).2.1 + sz ≤ maxS) := by
  intro es
  induction es with
  | nil =>
      intro cur
      exact ⟨rfl, by simp [evictLoop, sumSizes], Or.inl rfl⟩
  | cons e rest ih =>
      intro cur
      by_cases hc : maxS < cur + sz
      · have h1 : evictLoop maxS sz (e :: rest) cur =
            ((evictLoop maxS sz rest (cur - e.2.size)).1,
             (evictLoop maxS sz rest (cur - e.2.size)).2.1,
             e :: (evictLoop maxS sz rest (cur - e.2.size)).2.2) := by
          simp [evictLoop, hc]
        obtain ⟨i1, i2, i3⟩ := ih (cur - e.2.size)
        rw [h1]
        refine ⟨?_, ?_, ?_⟩
        · show e :: rest = (e :: (evictLoop maxS sz rest (cur - e.2.size)).2.2) ++ _
          rw [List.cons_append, ← i1]
        · show (evictLoop maxS sz rest (cur - e.2.size)).2.1 =
            cur - sumSizes (e :: (evictLoop maxS sz rest (cur - e.2.size)).2.2)
          rw [sumSizes_cons]
          omega
        · exact i3
      · have h1 : evictLoop maxS sz (e :: rest) cur = (e :: rest, cur, []) := by
          simp [evictLoop, hc]
        rw [h1]
        refine ⟨rfl, by simp [sumSizes], Or.inr (show cur + sz ≤ maxS by omega)⟩

theorem SizedLRU.remove_maxSize (l : SizedLRU) (k : String) :
    (l.remove k).maxSize = l.maxSize := by
  unfold SizedLRU.remove
  cases lookupA l.entries k <;> rfl

theorem SizedLRU.remove_lookup_self (l : SizedLRU) (k : String) :
    (l.remove k).lookup k = none := by
  unfold SizedLRU.remove SizedLRU.lookup
  cases hlk : lookupA l.entries k with
  | none => exact hlk
  | some it => exact lookupA_eraseKeyA_self l.entries k

theorem SizedLRU.remove_lookup_ne (l : SizedLRU) (k k' : String) (h : k' ≠ k) :
    (l.remove k).lookup k' = l.lookup k' := by
  unfold SizedLRU.remove SizedLRU.lookup
  cases hlk : lookupA l.entries k with
  | none => rfl
  | some it => exact lookupA_eraseKeyA_ne l.entries k k' h

theorem SizedLRU.remove_entry_ne (l : SizedLRU) (k : String) :
    ∀ p ∈ (l.remove k).entries, p.1 ≠ k := by
  unfold SizedLRU.remove
  cases hlk : lookupA l.entries k with
  | none => exact ne_of_lookupA_eq_none l.entries k hlk
  | some it => exact not_mem_keys_eraseKeyA l.entries k

theorem SizedLRU.remove_entry_mem (l : SizedLRU) (k : String) :
    ∀ p ∈ (l.remove k).entries, p ∈ l.entries := by
  unfold SizedLRU.remove
  cases hlk : lookupA l.entries k with
  | none => intro p hp; exact hp
  | some it => intro p hp; exact List.mem_of_mem_filter hp

theorem SizedLRU.remove_Inv (l : SizedLRU) (k : String) (h : l.Inv) : (l.remove k).Inv := by
  obtain ⟨h1, h2, h3, h4, h5⟩ := h
  unfold SizedLRU.remove
  cases hlk : lookupA l.entries k with
  | none => exact ⟨h1, h2, h3, h4, h5⟩
  | some it =>
      have hsz : 0 ≤ it.size := h4 (k, it) (mem_of_lookupA_eq_some _ _ _ hlk)
      refine ⟨?_, ?_, h3, ?_, keysOf_nodup_eraseKeyA _ _ h5⟩
      · show l.currentSize - it.size = sumSizes (eraseKeyA l.entries k)
        rw [sumSizes_eraseKeyA l.entries k it h5 hlk, h1]
      · show l.currentSize - it.size ≤ l.maxSize
        omega
      · intro p hp
        exact h4 p (List.mem_of_mem_filter hp)

theorem SizedLRU.add_maxSize (l : SizedLRU) (k : String) (it : LruItem) :
    (l.add k it).2.1.maxSize = l.maxSize := by
  unfold SizedLRU.add
  by_cases hb : l.maxSize < it.size
  · simp only [hb, if_pos]
    exact l.remove_maxSize k
  · simp only [hb, if_neg, ite_false]
    exact l.remove_maxSize k

theorem SizedLRU.add_Inv (l : SizedLRU) (k : String) (it : LruItem)
    (h : l.Inv) (hsz : 0 ≤ it.size) : (l.add k it).2.1.Inv := by
  obtain ⟨h1, h2, h3, h4, h5⟩ := l.remove_Inv k h
  obtain ⟨sp1, sp2, sp3⟩ :=
    evictLoop_spec (l.remove k).maxSize it.size (l.remove k).entries (l.remove k).currentSize
  have hmax := l.remove_maxSize k
  have hrem_mem : ∀ p ∈ (evictLoop (l.remove k).maxSize it.size (l.remove k).entries
      (l.remove k).currentSize).1, p ∈ (l.remove k).entries := by
    intro p hp
    rw [sp1]
    exact List.mem_append_right _ hp
  have hnonneg_rem : ∀ p ∈ (evictLoop (l.remove k).maxSize it.size (l.remove k).entries
      (l.remove k).currentSize).1, 0 ≤ p.2.size :=
    fun p hp => h4 p (hrem_mem p hp)
  have hcur : (evictLoop (l.remove k).maxSize it.size (l.remove k).entries
      (l.remove k).currentSize).2.1 = sumSizes (evictLoop (l.remove k).maxSize it.size
      (l.remove k).entries (l.remove k).currentSize).1 := by
    have := congrArg sumSizes sp1
    rw [sumSizes_append] at this
    omega
  have hcur_nonneg : 0 ≤ (evictLoop (l.remove k).maxSize it.size (l.remove k).entries
      (l.remove k).currentSize).2.1 := by
    rw [hcur]
    exact sumSizes_nonneg _ hnonneg_rem
  have hnodup_rem : (keysOf (evictLoop (l.remove k).maxSize it.size (l.remove k).entries
      (l.remove k).currentSize).1).Nodup := by
    have h6 : (keysOf ((evictLoop (l.remove k).maxSize it.size (l.remove k).entries
        (l.remove k).currentSize).2.2 ++ (evictLoop (l.remove k).maxSize it.size
        (l.remove k).entries (l.remove k).currentSize).1)).Nodup := by
      rw [← sp1]; exact h5
    rw [keysOf_append] at h6
    exact List.Nodup.of_append_right h6
  have hne_rem : ∀ p ∈ (evictLoop (l.remove k).maxSize it.size (l.remove k).entries
      (l.remove k).currentSize).1, p.1 ≠ k :=
    fun p hp => l.remove_entry_ne k p (hrem_mem p hp)
  unfold SizedLRU.add
  by_cases hb : l.maxSize < it.size
  · simp only [hb, if_pos]
    refine ⟨hcur.symm ▸ hcur ▸ hcur, ?_, hmax ▸ h3, hnonneg_rem, hnodup_rem⟩
    · show (evictLoop _ _ _ _).2.1 ≤ (l.remove k).maxSize
      rcases sp3 with he | hle
      · rw [hcur, he, sumSizes_nil]
        exact h3
      · omega
  · simp only [hb, ite_false]
    have hit : it.size ≤ (l.remove k).maxSize := by omega
    refine ⟨?_, ?_, hmax ▸ h3, ?_, ?_⟩
    · show (evictLoop _ _ _ _).2.1 + it.size = sumSizes ((evictLoop _ _ _ _).1 ++ [(k, it)])
      rw [sumSizes_append, sumSizes_cons, sumSizes_nil, hcur]
      ring
    · show (evictLoop _ _ _ _).2.1 + it.size ≤ (l.remove k).maxSize
      rcases sp3 with he | hle
      · have : (evictLoop (l.remove k).maxSize it.size (l.remove k).entries
            (l.remove k).currentSize).2.1 = 0 := by
          rw [hcur, he, sumSizes_nil]
        omega
      · omega
    · intro p hp
      rcases List.mem_append.mp hp with hm | hm
      · exact hnonneg_rem p hm
      · rw [List.mem_singleton.mp hm]
        exact hsz
    · show (keysOf ((evictLoop _ _ _ _).1 ++ [(k, it)])).Nodup
      rw [keysOf_append]
      apply List.Nodup.append hnodup_rem (by simp [keysOf])
      intro s hs hs2
      have hsk : s = k := by simpa [keysOf] using hs2
      subst hsk
      obtain ⟨it2, hit2⟩ := mem_keysOf.mp hs
      exact hne_rem (s, it2) hit2 rfl

theorem lookupA_commitMap_self (es : List (String × LruItem)) (k : String) :
    lookupA (es.map (fun p => if p.1 = k then (p.1, { p.2 with committed := true }) else p)) k =
      (lookupA es k).map (fun it => { it with committed := true }) := by
  induction es with
  | nil => rfl
  | cons p rest ih =>
      by_cases hpk : p.1 = k
      · simp [lookupA, hpk]
      · simp [lookupA, hpk, ih]

theorem lookupA_commitMap_ne (es : List (String × LruItem)) (k k' : String) (h : k' ≠ k) :
    lookupA (es.map (fun p => if p.1 = k then (p.1, { p.2 with committed := true }) else p)) k' =
      lookupA es k' := by
  induction es with
  | nil => rfl
  | cons p rest ih =>
      by_cases hpk : p.1 = k
      · have hpk2 : ¬p.1 = k' := fun he => h (by rw [← he, hpk])
        simp [lookupA, hpk, hpk2, Ne.symm h, ih]
      · by_cases hpk2 : p.1 = k'
        · simp [lookupA, hpk, hpk2, h]
        · simp [lookupA, hpk, hpk2, ih]

theorem SizedLRU.setCommitted_lookup_self (l : SizedLRU) (k : String) :
    (l.setCommitted k).lookup k =
      (l.lookup k).map (fun it => { it with committed := true }) :=
  lookupA_commitMap_self l.entries k

theorem SizedLRU.setCommitted_lookup_ne (l : SizedLRU) (k k' : String) (h : k' ≠ k) :
    (l.setCommitted k).lookup k' = l.lookup k' :=
  lookupA_commitMap_ne l.entries k k' h

theorem SizedLRU.setCommitted_maxSize (l : SizedLRU) (k : String) :
    (l.setCommitted k).maxSize = l.maxSize := rfl

theorem SizedLRU.setCommitted_currentSize (l : SizedLRU) (k : String) :
    (l.setCommitted k).currentSize = l.currentSize := rfl

theorem SizedLRU.setCommitted_length (l : SizedLRU) (k : String) :
    (l.setCommitted k).entries.length = l.entries.length := by
  unfold SizedLRU.setCommitted
  simp

theorem sumSizes_commitMap (es : List (String × LruItem)) (k : String) :
    sumSizes (es.map (fun p => if p.1 = k then (p.1, { p.2 with committed := true }) else p)) =
      sumSizes es := by
  induction es with
  | nil => rfl
  | cons p rest ih =>
      by_cases hpk : p.1 = k <;> simp [sumSizes_cons, hpk, ih]

theorem keysOf_commitMap (es : List (String × LruItem)) (k : String) :
    keysOf (es.map (fun p => if p.1 = k then (p.1, { p.2 with committed := true }) else p)) =
      keysOf es := by
  induction es with
  | nil => rfl
  | cons p rest ih =>
      by_cases hpk : p.1 = k <;> simp [keysOf, hpk] <;>
        simpa [keysOf] using ih

theorem SizedLRU.setCommitted_Inv (l : SizedLRU) (k : String) (h : l.Inv) :
    (l.setCommitted k).Inv := by
  obtain ⟨h1, h2, h3, h4, h5⟩ := h
  refine ⟨?_, h2, h3, ?_, ?_⟩
  · show l.currentSize = sumSizes (l.entries.map _)
    rw [sumSizes_commitMap]
    exact h1
  · intro p hp
    obtain ⟨q, hq, he⟩ := List.mem_map.mp hp
    by_cases hqk : q.1 = k
    · rw [if_pos hqk] at he
      rw [← he]
      exact h4 q hq
    · rw [if_neg hqk] at he
      rw [← he]
      exact h4 q hq
  · show (keysOf (l.entries.map _)).Nodup
    rw [keysOf_commitMap]
    exact h5

theorem SizedLRU.add_lookup_self (l : SizedLRU) (k : String) (it : LruItem)
    (hok : (l.add k it).1 = true) : (l.add k it).2.1.lookup k = some it := by
  unfold SizedLRU.add at *
  by_cases hb : l.maxSize < it.size
  · simp [hb] at hok
  · simp only [hb, ite_false] at *
    show lookupA ((evictLoop _ _ _ _).1 ++ [(k, it)]) k = some it
    have hnone : lookupA (evictLoop (l.remove k).maxSize it.size (l.remove k).entries
        (l.remove k).currentSize).1 k = none := by
      apply lookupA_eq_none_of
      intro p hp
      obtain ⟨sp1, _, _⟩ :=
        evictLoop_spec (l.remove k).maxSize it.size (l.remove k).entries (l.remove k).currentSize
      exact l.remove_entry_ne k p (by rw [sp1]; exact List.mem_append_right _ hp)
    rw [lookupA_append_right _ _ _ hnone, lookupA_cons, if_pos rfl]

/-- When the budget already accommodates the incoming item, the eviction loop
does not run and `add` succeeds by plain insertion at the MRU end. -/
theorem SizedLRU.add_no_evict (l : SizedLRU) (k : String) (it : LruItem)
    (hfit : (l.remove k).currentSize + it.size ≤ l.maxSize)
    (hcur : 0 ≤ (l.remove k).currentSize) :
    l.add k it = (true, SizedLRU.mk l.maxSize ((l.remove k).currentSize + it.size)
      ((l.remove k).entries ++ [(k, it)]), []) := by
  have hmax := l.remove_maxSize k
  have hnb : ¬(l.maxSize < it.size) := by omega
  have hloop : evictLoop l.maxSize it.size (l.remove k).entries
      (l.remove k).currentSize = ((l.remove k).entries, (l.remove k).currentSize, []) := by
    cases he : (l.remove k).entries with
    | nil => simp [evictLoop]
    | cons e rest =>
        have hnc : ¬(l.maxSize < (l.remove k).currentSize + it.size) := by omega
        simp [evictLoop, hnc]
  unfold SizedLRU.add
  simp only [hmax, hloop, hnb, ite_false]

/-! ### Engine-level invariant preservation -/

theorem putAdd_fst (c : DiskCache) (key : String) (n : Int) :
    (putAdd c key n).1 =
      { c with lru := (c.lru.add key ⟨n, false⟩).2.1,
               disk := applyEvictions c.disk (c.lru.add key ⟨n, false⟩).2.2 } := by
  unfold putAdd
  by_cases h : (c.lru.add key ⟨n, false⟩).1 <;> simp [h]

theorem putAdmit_Inv (c : DiskCache) (kind : EntryKind) (hash : String) (n : Int)
    (h : c.lru.Inv) (hn : 0 ≤ n) : (putAdmit c kind hash n).1.lru.Inv := by
  simp only [putAdmit]
  split
  · exact h
  · split
    · split
      · rw [putAdd_fst]
        exact SizedLRU.add_Inv _ _ _ (SizedLRU.get_Inv _ _ h) hn
      · exact SizedLRU.get_Inv _ _ h
    · rw [putAdd_fst]
      exact SizedLRU.add_Inv _ _ _ (SizedLRU.get_Inv _ _ h) hn

theorem putBody_Inv (hashFn : List Nat → String) (c : DiskCache) (kind : EntryKind)
    (hash : String) (n : Int) (fx : PutFx) (h : c.lru.Inv) :
    (putBody hashFn c kind hash n fx).1.lru.Inv := by
  simp only [putBody, putCleanup]
  split
  · exact SizedLRU.remove_Inv _ _ h
  · split
    · exact SizedLRU.remove_Inv _ _ h
    · split
      · exact SizedLRU.remove_Inv _ _ h
      · split
        · exact SizedLRU.remove_Inv _ _ h
        · split
          · exact SizedLRU.remove_Inv _ _ h
          · split
            · exact SizedLRU.remove_Inv _ _ h
            · split
              · exact SizedLRU.setCommitted_Inv _ _ h
              · exact SizedLRU.remove_Inv _ _ h

theorem Put_Inv (hashFn : List Nat → String) (c : DiskCache) (kind : EntryKind)
    (hash : String) (n : Int) (fx : PutFx) (h : c.lru.Inv) (hn : 0 ≤ n) :
    (Put hashFn c kind hash n fx).1.lru.Inv := by
  have hadm := putAdmit_Inv c kind hash n h hn
  unfold Put
  cases hpa : putAdmit c kind hash n with
  | mk c1 res =>
      rw [hpa] at hadm
      cases res
      · exact hadm
      · exact hadm
      · exact hadm
      · exact putBody_Inv hashFn c1 kind hash n fx hadm

theorem availableOrTryProxy_Inv (c : DiskCache) (key : String) (h : c.lru.Inv) :
    (availableOrTryProxy c key).1.lru.Inv := by
  simp only [availableOrTryProxy]
  split
  · exact SizedLRU.get_Inv _ _ h
  · split
    · exact SizedLRU.add_Inv _ _ _ (SizedLRU.get_Inv _ _ h) (by norm_num)
    · exact SizedLRU.get_Inv _ _ h

theorem getProxyFetch_Inv (c : DiskCache) (p : ProxyModel) (kind : EntryKind)
    (hash key : String) (fx : GetFx) (h : c.lru.Inv) :
    (getProxyFetch c p kind hash key fx).1.lru.Inv := by
  cases hres : p.getRes kind hash with
  | fail =>
      simp only [getProxyFetch, hres]
      exact SizedLRU.remove_Inv _ _ h
  | missing =>
      simp only [getProxyFetch, hres]
      exact SizedLRU.remove_Inv _ _ h
  | body bs declared =>
      simp only [getProxyFetch, getCleanup, hres]
      by_cases h1 : fx.createOk = false
      · simp [h1]
        exact SizedLRU.remove_Inv _ _ h
      · simp only [h1, ite_false, if_neg]
        by_cases h2 : fx.copyOk = false
        · simp [h2]
          exact SizedLRU.remove_Inv _ _ h
        · simp only [h2, ite_false, if_neg]
          by_cases h3 : (bs.length : Int) ≠ declared
          · simp [h3]
            exact SizedLRU.remove_Inv _ _ h
          · simp only [h3, ite_false, if_neg]
            have hd : 0 ≤ declared := by
              push_neg at h3
              omega
            by_cases h4 : fx.syncOk = false
            · simp [h4]
              exact SizedLRU.remove_Inv _ _ h
            · simp only [h4, ite_false, if_neg]
              by_cases h5 : fx.closeOk = false
              · simp [h5]
                exact SizedLRU.remove_Inv _ _ h
              · simp only [h5, ite_false, if_neg]
                by_cases h6 : fx.renameOk
                · simp only [h6, ite_true, if_pos]
                  by_cases h7 : fx.reopenOk
                  · simp [h7]
                    exact SizedLRU.add_Inv _ _ _ h hd
                  · simp [h7]
                    exact SizedLRU.add_Inv _ _ _ h hd
                · simp [h6]
                  exact SizedLRU.remove_Inv _ _ h

theorem Get_Inv (c : DiskCache) (kind : EntryKind) (hash : String) (fx : GetFx)
    (h : c.lru.Inv) : (Get c kind hash fx).1.lru.Inv := by
  have hav := availableOrTryProxy_Inv c (cacheKey kind hash) h
  simp only [Get]
  split
  · exact h
  · split
    · split
      · exact hav
      · exact hav
    · split
      · split
        · exact getProxyFetch_Inv _ _ _ _ _ _ hav
        · exact hav
      · exact hav

theorem Contains_Inv (c : DiskCache) (kind : EntryKind) (hash : String)
    (h : c.lru.Inv) : (Contains c kind hash).1.lru.Inv := by
  simp only [Contains]
  split
  · exact h
  · split
    · split
      · exact SizedLRU.get_Inv _ _ h
      · split
        · exact SizedLRU.get_Inv _ _ h
        · exact SizedLRU.get_Inv _ _ h
    · split
      · exact SizedLRU.get_Inv _ _ h
      · exact SizedLRU.get_Inv _ _ h

theorem loadOne_Inv (c : DiskCache) (relPath : String) (size : Int)
    (h : c.lru.Inv) (hs : 0 ≤ size) : (loadOne c relPath size).lru.Inv := by
  simp only [loadOne]
  exact SizedLRU.add_Inv _ _ _ h hs

theorem loadFiles_Inv (files : List (String × Int)) : ∀ (c : DiskCache),
    c.lru.Inv → (∀ f ∈ files, 0 ≤ f.2) → (loadFiles c files).lru.Inv := by
  induction files with
  | nil => intro c h _; exact h
  | cons f rest ih =>
      intro c h hf
      show (loadFiles (loadOne c f.1 f.2) rest).lru.Inv
      exact ih _ (loadOne_Inv c f.1 f.2 h (hf f (List.mem_cons_self f rest)))
        (fun g hg => hf g (List.mem_cons_of_mem f hg))

theorem newEngine_Inv (maxS : Int) (proxy : Option ProxyModel)
    (d0 : List (String × List Nat)) (files : List (String × Int))
    (hmax : 0 ≤ maxS) (hfiles : ∀ f ∈ files, 0 ≤ f.2) :
    (newEngine maxS proxy d0 files).lru.Inv := by
  unfold newEngine
  apply loadFiles_Inv files _ _ hfiles
  exact ⟨rfl, hmax, hmax, by simp, by simp [keysOf]⟩

/-- C1: after every engine operation (put, get, contains, and startup
restoration), the sum of the sizes of all index entries equals
`current_size`, and `current_size` never exceeds `max_size`.  The index is
modelled from spec §4.1 (lru.go is not under src/); the engine operations
are from disk.go.  The hypotheses say the starting state satisfies the same
accounting invariant, the declared upload size is non-negative, the
configured capacity is non-negative, and the restored files have
non-negative sizes. -/
theorem C1_size_accounting (hashFn : List Nat → String) (c : DiskCache)
    (kind : EntryKind) (hash : String) (n : Int) (fx : PutFx) (gfx : GetFx)
    (maxS : Int) (proxy : Option ProxyModel) (d0 : List (String × List Nat))
    (files : List (String × Int)) (h : c.lru.Inv) (hn : 0 ≤ n) (hmax : 0 ≤ maxS)
    (hfiles : ∀ f ∈ files, 0 ≤ f.2) :
    ((Put hashFn c kind hash n fx).1.lru.currentSize =
        sumSizes (Put hashFn c kind hash n fx).1.lru.entries ∧
      (Put hashFn c kind hash n fx).1.lru.currentSize ≤
        (Put hashFn c kind hash n fx).1.lru.maxSize) ∧
    ((Get c kind hash gfx).1.lru.currentSize =
        sumSizes (Get c kind hash gfx).1.lru.entries ∧
      (Get c kind hash gfx).1.lru.currentSize ≤ (Get c kind hash gfx).1.lru.maxSize) ∧
    ((Contains c kind hash).1.lru.currentSize =
        sumSizes (Contains c kind hash).1.lru.entries ∧
      (Contains c kind hash).1.lru.currentSize ≤ (Contains c kind hash).1.lru.maxSize) ∧
    ((newEngine maxS proxy d0 files).lru.currentSize =
        sumSizes (newEngine maxS proxy d0 files).lru.entries ∧
      (newEngine maxS proxy d0 files).lru.currentSize ≤
        (newEngine maxS proxy d0 files).lru.maxSize) := by
  obtain ⟨p1, p2, _, _, _⟩ := Put_Inv hashFn c kind hash n fx h hn
  obtain ⟨g1, g2, _, _, _⟩ := Get_Inv c kind hash gfx h
  obtain ⟨c1, c2, _, _, _⟩ := Contains_Inv c kind hash h
  obtain ⟨e1, e2, _, _, _⟩ := newEngine_Inv maxS proxy d0 files hmax hfiles
  exact ⟨⟨p1, p2⟩, ⟨g1, g2⟩, ⟨c1, c2⟩, ⟨e1, e2⟩⟩

/-- Witness for C1 at a concrete state: an empty 10-byte cache, a put of one
byte, and a restoration of two files. -/
theorem C1_size_accounting_witness :
    (Put (fun _ => String.mk (List.replicate 64 'a'))
        (DiskCache.mk ⟨10, 0, []⟩ [] none) EntryKind.CAS
        (String.mk (List.replicate 64 'a')) 1 ⟨true, true, [97], true, true, true⟩).1.lru.currentSize =
      sumSizes (Put (fun _ => String.mk (List.replicate 64 'a'))
        (DiskCache.mk ⟨10, 0, []⟩ [] none) EntryKind.CAS
        (String.mk (List.replicate 64 'a')) 1 ⟨true, true, [97], true, true, true⟩).1.lru.entries ∧
    (Put (fun _ => String.mk (List.replicate 64 'a'))
        (DiskCache.mk ⟨10, 0, []⟩ [] none) EntryKind.CAS
        (String.mk (List.replicate 64 'a')) 1 ⟨true, true, [97], true, true, true⟩).1.lru.currentSize ≤
      (Put (fun _ => String.mk (List.replicate 64 'a'))
        (DiskCache.mk ⟨10, 0, []⟩ [] none) EntryKind.CAS
        (String.mk (List.replicate 64 'a')) 1 ⟨true, true, [97], true, true, true⟩).1.lru.maxSize :=
  (C1_size_accounting (fun _ => String.mk (List.replicate 64 'a'))
    (DiskCache.mk ⟨10, 0, []⟩ [] none) EntryKind.CAS
    (String.mk (List.replicate 64 'a')) 1 ⟨true, true, [97], true, true, true⟩
    ⟨true, true, true, true, true, true⟩ 10 none [] [("x", 1), ("y", 2)]
    ⟨rfl, by norm_num, by norm_num, by simp, by simp [keysOf]⟩
    (by norm_num) (by norm_num)
    (by decide)).1

/-! ### Concrete digests and oracles used by witnesses and counterexamples -/

/-- A 64-character digest consisting of the letter a. -/
def hashA : String := String.mk (List.replicate 64 'a')

/-- A 64-character digest consisting of the letter b. -/
def hashB : String := String.mk (List.replicate 64 'b')

/-- A 64-character string consisting of the letter z: the right length but
not hexadecimal. -/
def hashZ : String := String.mk (List.replicate 64 'z')

/-- A fully successful I/O oracle for Put carrying the given bytes. -/
def putFxOk (bs : List Nat) : PutFx := ⟨true, true, bs, true, true, true⟩

/-- A fully successful I/O oracle for Get. -/
def getFxOk : GetFx := ⟨true, true, true, true, true, true⟩

/-- C6: for a key whose index entry is uncommitted, `Get` returns a miss
(`nil` reader, size -1, no error) without touching any file: the disk is
unchanged and no file content is exposed, and the index lookups are
unchanged (only the entry's recency moves). -/
theorem C6_get_uncommitted_miss (c : DiskCache) (kind : EntryKind) (hash : String)
    (gfx : GetFx) (it : LruItem) (hlen : hash.length = sha256HashStrSize)
    (hlk : c.lru.lookup (cacheKey kind hash) = some it) (hunc : it.committed = false) :
    (Get c kind hash gfx).2 = ⟨none, -1, none⟩ ∧
    (Get c kind hash gfx).1.disk = c.disk ∧
    (∀ k, (Get c kind hash gfx).1.lru.lookup k = c.lru.lookup k) := by
  have hne : ¬(hash.length ≠ sha256HashStrSize) := fun hc => hc hlen
  have hfst : (c.lru.get (cacheKey kind hash)).1 = some it := by
    rw [SizedLRU.get_fst]; exact hlk
  simp only [Get, availableOrTryProxy, hne, ite_false, hfst, hunc]
  exact ⟨rfl, rfl, fun k => SizedLRU.get_lookup c.lru (cacheKey kind hash) k⟩

/-- Witness for C6: a cache holding one uncommitted three-byte entry. -/
theorem C6_get_uncommitted_miss_witness :
    (Get (DiskCache.mk ⟨100, 3, [(cacheKey EntryKind.CAS hashA, ⟨3, false⟩)]⟩ [] none)
      EntryKind.CAS hashA getFxOk).2 = ⟨none, -1, none⟩ :=
  (C6_get_uncommitted_miss
    (DiskCache.mk ⟨100, 3, [(cacheKey EntryKind.CAS hashA, ⟨3, false⟩)]⟩ [] none)
    EntryKind.CAS hashA getFxOk ⟨3, false⟩ (by decide) (by decide) rfl).1

/-- C3 counterexample: a cache whose only entry for the key is uncommitted
and whose proxy answers `(true, 7)`.  `Contains` delegates to the proxy and
reports `(true, 7)`: it does not report `(false, -1)` for the uncommitted
entry, and it delegates even though an entry exists for the key. -/
theorem C3_counterexample :
    (Contains
      (DiskCache.mk ⟨100, 3, [(cacheKey EntryKind.CAS hashA, ⟨3, false⟩)]⟩ []
        (some ⟨fun _ _ => ProxyGetRes.missing, fun _ _ => (true, 7)⟩))
      EntryKind.CAS hashA).2 = (true, 7) ∧
    (Contains
      (DiskCache.mk ⟨100, 3, [(cacheKey EntryKind.CAS hashA, ⟨3, false⟩)]⟩ []
        (some ⟨fun _ _ => ProxyGetRes.missing, fun _ _ => (true, 7)⟩))
      EntryKind.CAS hashA).2 ≠ (false, -1) := by
  constructor
  · rfl
  · intro hc
    cases hc

/-- C3 (amended): `contains` reports `(true, size)` for committed entries;
for a key whose entry is uncommitted, and equally for a key with no entry,
it delegates to `proxy.contains` when a proxy is configured and reports
`(false, -1)` otherwise. -/
theorem C3_contains_behavior (c : DiskCache) (kind : EntryKind) (hash : String)
    (hlen : hash.length = sha256HashStrSize) :
    (∀ it, c.lru.lookup (cacheKey kind hash) = some it → it.committed = true →
      (Contains c kind hash).2 = (true, it.size)) ∧
    (∀ it, c.lru.lookup (cacheKey kind hash) = some it → it.committed = false →
      (Contains c kind hash).2 =
        (match c.proxy with
         | some p => p.containsRes kind hash
         | none => (false, -1))) ∧
    (c.lru.lookup (cacheKey kind hash) = none →
      (Contains c kind hash).2 =
        (match c.proxy with
         | some p => p.containsRes kind hash
         | none => (false, -1))) := by
  have hne : ¬(hash.length ≠ sha256HashStrSize) := fun hc => hc hlen
  refine ⟨?_, ?_, ?_⟩
  · intro it hlk hcom
    have hfst : (c.lru.get (cacheKey kind hash)).1 = some it := by
      rw [SizedLRU.get_fst]; exact hlk
    simp only [Contains, hne, ite_false, hfst, hcom]
    simp
  · intro it hlk hunc
    have hfst : (c.lru.get (cacheKey kind hash)).1 = some it := by
      rw [SizedLRU.get_fst]; exact hlk
    simp only [Contains, hne, ite_false, hfst, hunc]
    simp only [Bool.false_eq_true, ite_false]
    cases c.proxy <;> rfl
  · intro hlk
    have hfst : (c.lru.get (cacheKey kind hash)).1 = none := by
      rw [SizedLRU.get_fst]; exact hlk
    simp only [Contains, hne, ite_false, hfst]
    cases c.proxy <;> rfl

/-- Witness for the amended C3: a committed entry of size 5 is reported as
`(true, 5)`. -/
theorem C3_contains_behavior_witness :
    (Contains (DiskCache.mk ⟨100, 5, [(cacheKey EntryKind.CAS hashA, ⟨5, true⟩)]⟩ [] none)
      EntryKind.CAS hashA).2 = (true, 5) :=
  (C3_contains_behavior
    (DiskCache.mk ⟨100, 5, [(cacheKey EntryKind.CAS hashA, ⟨5, true⟩)]⟩ [] none)
    EntryKind.CAS hashA (by decide)).1 ⟨5, true⟩ (by decide) rfl

/-- C8 counterexample: the 64-character non-hexadecimal digest of letters z
is accepted: a `Put` of an AC blob under it fully succeeds, a `Get` under it
is not rejected (no error; an ordinary miss), and yet it fails the spec's
hex-charset check. -/
theorem C8_counterexample :
    (Put (fun _ => hashA) (DiskCache.mk ⟨10, 0, []⟩ [] none) EntryKind.AC hashZ 1
      (putFxOk [97])).2 = none ∧
    (Get (DiskCache.mk ⟨10, 0, []⟩ [] none) EntryKind.AC hashZ getFxOk).2.err = none ∧
    specHexDigest hashZ = false := by
  refine ⟨by decide, by decide, by decide⟩

theorem putBody_err_not_invalid (hashFn : List Nat → String) (c : DiskCache)
    (kind : EntryKind) (hash : String) (n : Int) (fx : PutFx) :
    (putBody hashFn c kind hash n fx).2 ≠ some CacheErr.invalidHash := by
  simp only [putBody]
  split
  · simp
  · split
    · simp
    · split
      · simp
      · split
        · simp
        · split
          · simp
          · split
            · simp
            · split
              · simp
              · simp

theorem putAdd_snd (c : DiskCache) (key : String) (n : Int) :
    (putAdd c key n).2 = (if (c.lru.add key ⟨n, false⟩).1 then PutAdmitRes.admitted
      else PutAdmitRes.tooBig) := by
  unfold putAdd
  by_cases h : (c.lru.add key ⟨n, false⟩).1 <;> simp [h]

theorem putAdmit_res_not_invalid (c : DiskCache) (kind : EntryKind) (hash : String)
    (n : Int) (hl : ¬(hash.length ≠ sha256HashStrSize)) :
    (putAdmit c kind hash n).2 ≠ PutAdmitRes.invalid := by
  simp only [putAdmit, hl, ite_false]
  cases hfst : (c.lru.get (cacheKey kind hash)).1 with
  | none =>
      simp only [hfst, putAdd_snd]
      split <;> simp
  | some it =>
      simp only [hfst]
      split
      · rw [putAdd_snd]
        split <;> simp
      · simp

theorem getProxyFetch_err_not_invalid (c : DiskCache) (p : ProxyModel)
    (kind : EntryKind) (hash key : String) (fx : GetFx) :
    (getProxyFetch c p kind hash key fx).2.err ≠ some CacheErr.invalidHash := by
  simp only [getProxyFetch]
  split
  · simp
  · simp
  · split
    · simp
    · split
      · simp
      · split
        · simp
        · split
          · simp
          · split
            · simp
            · split
              · split
                · simp
                · simp
              · simp

/-- C8 (amended): the engine's up-front digest validation is a length check
only: a digest is accepted by `Put` or `Get` (not rejected with the
invalid-hash error) exactly when it is 64 characters long, and `Contains`
rejects other lengths with `(false, -1)`; the hex-charset requirement is not
checked by the engine (it is the boundary's responsibility). -/
theorem C8_length_check_only (hashFn : List Nat → String) (c : DiskCache)
    (kind : EntryKind) (hash : String) (n : Int) (fx : PutFx) (gfx : GetFx) :
    ((Put hashFn c kind hash n fx).2 ≠ some CacheErr.invalidHash ↔ hash.length = 64) ∧
    ((Get c kind hash gfx).2.err ≠ some CacheErr.invalidHash ↔ hash.length = 64) ∧
    (hash.length ≠ 64 → Contains c kind hash = (c, false, -1)) := by
  have h64 : sha256HashStrSize = 64 := rfl
  refine ⟨?_, ?_, ?_⟩
  · constructor
    · intro hne
      by_contra hlen
      have hl : hash.length ≠ sha256HashStrSize := by rw [h64]; exact hlen
      have : Put hashFn c kind hash n fx = (c, some CacheErr.invalidHash) := by
        unfold Put putAdmit
        simp [hl]
      rw [this] at hne
      exact hne rfl
    · intro hlen
      have hl : ¬(hash.length ≠ sha256HashStrSize) := fun hc => hc (by rw [h64]; exact hlen)
      unfold Put
      cases hpa : putAdmit c kind hash n with
      | mk c1 res =>
          cases res with
          | invalid =>
              exfalso
              exact putAdmit_res_not_invalid c kind hash n hl
                (by rw [hpa])
          | drained => simp
          | tooBig => simp
          | admitted => exact putBody_err_not_invalid hashFn c1 kind hash n fx
  · constructor
    · intro hne
      by_contra hlen
      have hl : hash.length ≠ sha256HashStrSize := by rw [h64]; exact hlen
      have : Get c kind hash gfx = (c, ⟨none, -1, some CacheErr.invalidHash⟩) := by
        unfold Get
        simp [hl]
      rw [this] at hne
      exact hne rfl
    · intro hlen
      have hl : ¬(hash.length ≠ sha256HashStrSize) := fun hc => hc (by rw [h64]; exact hlen)
      simp only [Get, hl, ite_false]
      split
      · split
        · simp
        · simp
      · split
        · split
          · exact getProxyFetch_err_not_invalid _ _ _ _ _ _
          · simp
        · simp
  · intro hlen
    have hl : hash.length ≠ sha256HashStrSize := by rw [h64]; exact hlen
    unfold Contains
    simp [hl]

/-- Witness for the amended C8: a 10-character digest is rejected by all
three operations, and a successful 64-character put is not rejected. -/
theorem C8_length_check_only_witness :
    Contains (DiskCache.mk ⟨10, 0, []⟩ [] none) EntryKind.CAS "0123456789" = 
      (DiskCache.mk ⟨10, 0, []⟩ [] none, false, -1) :=
  (C8_length_check_only (fun _ => hashA) (DiskCache.mk ⟨10, 0, []⟩ [] none)
    EntryKind.CAS "0123456789" 1 (putFxOk [97]) getFxOk).2.2 (by decide)

theorem lookupA_eraseKeyA_none {α : Type} (d : List (String × α)) (k p : String)
    (h : lookupA d p = none) : lookupA (eraseKeyA d k) p = none := by
  by_cases hpk : p = k
  · subst hpk
    exact lookupA_eraseKeyA_self d p
  · rw [lookupA_eraseKeyA_ne d k p hpk]
    exact h

theorem lookupA_applyEvictions_none (evs : List (String × LruItem)) :
    ∀ (d : List (String × List Nat)) (p : String), lookupA d p = none →
      lookupA (applyEvictions d evs) p = none := by
  induction evs with
  | nil => intro d p h; exact h
  | cons e rest ih =>
      intro d p h
      show lookupA (applyEvictions _ rest) p = none
      apply ih
      by_cases hc : e.2.committed
      · simp only [hc, ite_true]
        exact lookupA_eraseKeyA_none d e.1 p h
      · simp only [hc, ite_false]
        exact lookupA_eraseKeyA_none _ e.1 p (lookupA_eraseKeyA_none d (e.1 ++ ".tmp") p h)

theorem putAdmit_disk (c : DiskCache) (kind : EntryKind) (hash : String) (n : Int) :
    ∃ evs, (putAdmit c kind hash n).1.disk = applyEvictions c.disk evs := by
  simp only [putAdmit]
  split
  · exact ⟨[], rfl⟩
  · cases hfst : (c.lru.get (cacheKey kind hash)).1 with
    | none =>
        simp only [hfst, putAdd_fst]
        exact ⟨_, rfl⟩
    | some it =>
        simp only [hfst]
        split
        · rw [putAdd_fst]
          exact ⟨_, rfl⟩
        · exact ⟨[], rfl⟩

theorem putBody_err_cleanup (hashFn : List Nat → String) (c1 : DiskCache)
    (kind : EntryKind) (hash : String) (n : Int) (fx : PutFx) (e : CacheErr)
    (htmp : lookupA c1.disk (cacheKey kind hash ++ ".tmp") = none) :
    (putBody hashFn c1 kind hash n fx).2 = some e →
    (putBody hashFn c1 kind hash n fx).1.lru.lookup (cacheKey kind hash) = none ∧
    lookupA (putBody hashFn c1 kind hash n fx).1.disk (cacheKey kind hash ++ ".tmp") = none := by
  simp only [putBody, putCleanup]
  split
  · intro _
    refine ⟨SizedLRU.remove_lookup_self _ _, ?_⟩
    simp only [ite_false]
    exact htmp
  · split
    · intro _
      exact ⟨SizedLRU.remove_lookup_self _ _, by simpa using lookupA_eraseKeyA_self _ _⟩
    · split
      · intro _
        exact ⟨SizedLRU.remove_lookup_self _ _, by simpa using lookupA_eraseKeyA_self _ _⟩
      · split
        · intro _
          exact ⟨SizedLRU.remove_lookup_self _ _, by simpa using lookupA_eraseKeyA_self _ _⟩
        · split
          · intro _
            exact ⟨SizedLRU.remove_lookup_self _ _, by simpa using lookupA_eraseKeyA_self _ _⟩
          · split
            · intro _
              exact ⟨SizedLRU.remove_lookup_self _ _, by simpa using lookupA_eraseKeyA_self _ _⟩
            · split
              · intro hcon
                cases hcon
              · intro _
                exact ⟨SizedLRU.remove_lookup_self _ _, by simpa using lookupA_eraseKeyA_self _ _⟩

/-- C4: for every put that fails after admission (hash mismatch, size
mismatch, I/O error, or rename failure), the index afterwards contains no
entry for that key and no `\x7bpath\x7d.tmp` file remains on disk when the error
is returned.  The hypothesis `htmp` states that no stale temp file for this
key predates the call (temp files exist only during an in-flight upload). -/
theorem C4_failed_put_cleanup (hashFn : List Nat → String) (c : DiskCache)
    (kind : EntryKind) (hash : String) (n : Int) (fx : PutFx) (e : CacheErr)
    (hadm : (putAdmit c kind hash n).2 = PutAdmitRes.admitted)
    (herr : (Put hashFn c kind hash n fx).2 = some e)
    (htmp : lookupA c.disk (cacheKey kind hash ++ ".tmp") = none) :
    (Put hashFn c kind hash n fx).1.lru.lookup (cacheKey kind hash) = none ∧
    lookupA (Put hashFn c kind hash n fx).1.disk (cacheKey kind hash ++ ".tmp") = none := by
  have hput : Put hashFn c kind hash n fx =
      putBody hashFn (putAdmit c kind hash n).1 kind hash n fx := by
    unfold Put
    cases hpa : putAdmit c kind hash n with
    | mk c1 res =>
        have hres : res = PutAdmitRes.admitted := by
          have h2 := hadm
          rw [hpa] at h2
          exact h2
        subst hres
        rfl
  obtain ⟨evs, hdisk⟩ := putAdmit_disk c kind hash n
  have htmp1 : lookupA (putAdmit c kind hash n).1.disk (cacheKey kind hash ++ ".tmp") = none := by
    rw [hdisk]
    exact lookupA_applyEvictions_none evs c.disk _ htmp
  rw [hput] at herr ⊢
  exact putBody_err_cleanup hashFn _ kind hash n fx e htmp1 herr

/-- Witness for C4: a one-byte put with a failing rename into an empty cache
leaves no index entry and no temp file. -/
theorem C4_failed_put_cleanup_witness :
    (Put (fun _ => hashA) (DiskCache.mk ⟨10, 0, []⟩ [] none) EntryKind.CAS hashA 1
      ⟨true, true, [97], true, true, false⟩).1.lru.lookup (cacheKey EntryKind.CAS hashA) = none ∧
    lookupA (Put (fun _ => hashA) (DiskCache.mk ⟨10, 0, []⟩ [] none) EntryKind.CAS hashA 1
      ⟨true, true, [97], true, true, false⟩).1.disk (cacheKey EntryKind.CAS hashA ++ ".tmp") = none :=
  C4_failed_put_cleanup (fun _ => hashA) (DiskCache.mk ⟨10, 0, []⟩ [] none)
    EntryKind.CAS hashA 1 ⟨true, true, [97], true, true, false⟩ CacheErr.renameErr
    (by decide) (by decide) (by decide)

theorem SizedLRU.remove_of_none (l : SizedLRU) (k : String) (h : l.lookup k = none) :
    l.remove k = l := by
  unfold SizedLRU.remove
  unfold SizedLRU.lookup at h
  rw [h]

/-- C7 counterexample: a short read (two bytes against a declared size of
three) whose bytes do not hash to the declared digest fails with the hash
mismatch error, not the size mismatch error, because the CAS hash check runs
first; and when the key previously held a committed one-byte entry, the
failed overwrite removes it, so `stats()` drops from `(1, 1)` to `(0, 0)`
instead of being unchanged. -/
theorem C7_counterexample :
    (Put (fun _ => hashB)
      (DiskCache.mk ⟨10, 1, [(cacheKey EntryKind.CAS hashA, ⟨1, true⟩)]⟩
        [(cacheKey EntryKind.CAS hashA, [97])] none)
      EntryKind.CAS hashA 3 (putFxOk [97, 98])).2 ≠ some CacheErr.sizeMismatch ∧
    (Put (fun _ => hashB)
      (DiskCache.mk ⟨10, 1, [(cacheKey EntryKind.CAS hashA, ⟨1, true⟩)]⟩
        [(cacheKey EntryKind.CAS hashA, [97])] none)
      EntryKind.CAS hashA 3 (putFxOk [97, 98])).2 = some CacheErr.hashMismatch ∧
    Stats (Put (fun _ => hashB)
      (DiskCache.mk ⟨10, 1, [(cacheKey EntryKind.CAS hashA, ⟨1, true⟩)]⟩
        [(cacheKey EntryKind.CAS hashA, [97])] none)
      EntryKind.CAS hashA 3 (putFxOk [97, 98])).1 ≠
      Stats (DiskCache.mk ⟨10, 1, [(cacheKey EntryKind.CAS hashA, ⟨1, true⟩)]⟩
        [(cacheKey EntryKind.CAS hashA, [97])] none) := by
  refine ⟨by decide, by decide, by decide⟩

/-- C7 (amended): a CAS put whose reader yields fewer bytes than the
declared size fails with SizeMismatch provided the yielded bytes hash to
the declared digest (otherwise the earlier hash check fails first); no temp
file remains and the key is absent from the index afterwards; and when the
key was not previously present and admission evicted nothing
(`current_size + n ≤ max_size`), `stats()` is unchanged. -/
theorem C7_short_read (hashFn : List Nat → String) (c : DiskCache) (hash : String)
    (n : Int) (fx : PutFx)
    (hlen : hash.length = sha256HashStrSize)
    (hInv : c.lru.Inv)
    (hkey : c.lru.lookup (cacheKey EntryKind.CAS hash) = none)
    (hfit : c.lru.currentSize + n ≤ c.lru.maxSize)
    (hcr : fx.createOk = true) (hcp : fx.copyOk = true)
    (hsy : fx.syncOk = true) (hcl : fx.closeOk = true)
    (hh : hashFn fx.bytes = hash)
    (hshort : (fx.bytes.length : Int) < n) :
    (Put hashFn c EntryKind.CAS hash n fx).2 = some CacheErr.sizeMismatch ∧
    Stats (Put hashFn c EntryKind.CAS hash n fx).1 = Stats c ∧
    lookupA (Put hashFn c EntryKind.CAS hash n fx).1.disk
      (cacheKey EntryKind.CAS hash ++ ".tmp") = none ∧
    (Put hashFn c EntryKind.CAS hash n fx).1.lru.lookup (cacheKey EntryKind.CAS hash) = none := by
  have hne : ¬(hash.length ≠ sha256HashStrSize) := fun hc => hc hlen
  have hrm : c.lru.remove (cacheKey EntryKind.CAS hash) = c.lru :=
    SizedLRU.remove_of_none _ _ hkey
  have hcur0 : 0 ≤ c.lru.currentSize := by
    obtain ⟨h1, _, _, h4, _⟩ := hInv
    rw [h1]
    exact sumSizes_nonneg _ h4
  have hadd := SizedLRU.add_no_evict c.lru (cacheKey EntryKind.CAS hash) ⟨n, false⟩
    (by rw [hrm]; exact hfit) (by rw [hrm]; exact hcur0)
  rw [hrm] at hadd
  have hfst : (c.lru.get (cacheKey EntryKind.CAS hash)).1 = none := by
    rw [SizedLRU.get_fst]
    exact hkey
  have hg2 : (c.lru.get (cacheKey EntryKind.CAS hash)).2 = c.lru :=
    SizedLRU.get_entries_of_none c.lru _ hkey
  have hadm : putAdmit c EntryKind.CAS hash n =
      (DiskCache.mk (SizedLRU.mk c.lru.maxSize (c.lru.currentSize + n)
        (c.lru.entries ++ [(cacheKey EntryKind.CAS hash, ⟨n, false⟩)])) c.disk c.proxy,
       PutAdmitRes.admitted) := by
    simp only [putAdmit, hne, ite_false, hfst, hg2]
    unfold putAdd
    simp only [hadd]
    simp [applyEvictions]
  have hput : Put hashFn c EntryKind.CAS hash n fx =
      putBody hashFn (DiskCache.mk (SizedLRU.mk c.lru.maxSize (c.lru.currentSize + n)
        (c.lru.entries ++ [(cacheKey EntryKind.CAS hash, ⟨n, false⟩)])) c.disk c.proxy)
        EntryKind.CAS hash n fx := by
    unfold Put
    rw [hadm]
  have hhc : ¬(EntryKind.CAS = EntryKind.CAS ∧ hashFn fx.bytes ≠ hash) :=
    fun hc => hc.2 hh
  have hsz : ((fx.bytes.length : Int) ≠ n) := by omega
  have hbody : putBody hashFn (DiskCache.mk (SizedLRU.mk c.lru.maxSize (c.lru.currentSize + n)
      (c.lru.entries ++ [(cacheKey EntryKind.CAS hash, ⟨n, false⟩)])) c.disk c.proxy)
      EntryKind.CAS hash n fx =
      (putCleanup (DiskCache.mk (SizedLRU.mk c.lru.maxSize (c.lru.currentSize + n)
        (c.lru.entries ++ [(cacheKey EntryKind.CAS hash, ⟨n, false⟩)]))
        (setA c.disk (cacheKey EntryKind.CAS hash ++ ".tmp") fx.bytes) c.proxy)
        (cacheKey EntryKind.CAS hash) true,
       some CacheErr.sizeMismatch) := by
    simp only [putBody, hcr, hcp, hsy, hcl, hhc, hsz]
    simp [hh, hsz]
  have hlkk : lookupA (c.lru.entries ++ [(cacheKey EntryKind.CAS hash, (⟨n, false⟩ : LruItem))])
      (cacheKey EntryKind.CAS hash) = some ⟨n, false⟩ := by
    rw [lookupA_append_right _ _ _ hkey, lookupA_cons, if_pos rfl]
  have herase : eraseKeyA (c.lru.entries ++ [(cacheKey EntryKind.CAS hash, (⟨n, false⟩ : LruItem))])
      (cacheKey EntryKind.CAS hash) = c.lru.entries := by
    rw [eraseKeyA_append, eraseKeyA_of_lookupA_none _ _ hkey]
    simp [eraseKeyA]
  have hclean : putCleanup (DiskCache.mk (SizedLRU.mk c.lru.maxSize (c.lru.currentSize + n)
      (c.lru.entries ++ [(cacheKey EntryKind.CAS hash, ⟨n, false⟩)]))
      (setA c.disk (cacheKey EntryKind.CAS hash ++ ".tmp") fx.bytes) c.proxy)
      (cacheKey EntryKind.CAS hash) true =
      DiskCache.mk (SizedLRU.mk c.lru.maxSize c.lru.currentSize c.lru.entries)
        (eraseKeyA (setA c.disk (cacheKey EntryKind.CAS hash ++ ".tmp") fx.bytes)
          (cacheKey EntryKind.CAS hash ++ ".tmp")) c.proxy := by
    have hc2 : c.lru.currentSize + n - n = c.lru.currentSize := by ring
    simp [putCleanup, SizedLRU.remove, hlkk, herase, hc2]
  rw [hput, hbody, hclean]
  refine ⟨rfl, ?_, lookupA_eraseKeyA_self _ _, ?_⟩
  · unfold Stats
    rfl
  · show lookupA c.lru.entries (cacheKey EntryKind.CAS hash) = none
    exact hkey

/-- Witness for the amended C7: in an empty 100-byte cache, a put declaring
three bytes whose reader yields two bytes hashing correctly fails with
SizeMismatch and restores `stats()` to `(0, 0)`. -/
theorem C7_short_read_witness :
    (Put (fun bs => if bs = [97, 98] then hashA else hashB)
      (DiskCache.mk ⟨100, 0, []⟩ [] none) EntryKind.CAS hashA 3 (putFxOk [97, 98])).2 =
      some CacheErr.sizeMismatch ∧
    Stats (Put (fun bs => if bs = [97, 98] then hashA else hashB)
      (DiskCache.mk ⟨100, 0, []⟩ [] none) EntryKind.CAS hashA 3 (putFxOk [97, 98])).1 =
      Stats (DiskCache.mk ⟨100, 0, []⟩ [] none) := by
  have h := C7_short_read (fun bs => if bs = [97, 98] then hashA else hashB)
    (DiskCache.mk ⟨100, 0, []⟩ [] none) hashA 3 (putFxOk [97, 98])
    (by decide) ⟨rfl, by norm_num, by norm_num, by simp, by simp [keysOf]⟩
    (by decide) (by norm_num) rfl rfl rfl rfl (by decide) (by decide)
  exact ⟨h.1, h.2.1⟩

theorem key_ne_tmp (key : String) : key ≠ key ++ ".tmp" := by
  intro he
  have h2 := congrArg String.length he
  rw [String.length_append] at h2
  have h4 : ".tmp".length = 4 := rfl
  rw [h4] at h2
  omega

theorem tmp_ne_key (key : String) : key ++ ".tmp" ≠ key := fun he => key_ne_tmp key he.symm

/-- The state produced by a fresh admission: the key was absent and the new
uncommitted entry fits without eviction, so it is appended at the MRU end
and `current_size` grows by the declared size. -/
theorem putAdmit_fresh (c : DiskCache) (kind : EntryKind) (hash : String) (n : Int)
    (hlen : hash.length = sha256HashStrSize) (hInv : c.lru.Inv)
    (hkey : c.lru.lookup (cacheKey kind hash) = none)
    (hfit : c.lru.currentSize + n ≤ c.lru.maxSize) :
    putAdmit c kind hash n =
      (DiskCache.mk (SizedLRU.mk c.lru.maxSize (c.lru.currentSize + n)
        (c.lru.entries ++ [(cacheKey kind hash, ⟨n, false⟩)])) c.disk c.proxy,
       PutAdmitRes.admitted) := by
  have hne : ¬(hash.length ≠ sha256HashStrSize) := fun hc => hc hlen
  have hrm : c.lru.remove (cacheKey kind hash) = c.lru :=
    SizedLRU.remove_of_none _ _ hkey
  have hcur0 : 0 ≤ c.lru.currentSize := by
    obtain ⟨h1, _, _, h4, _⟩ := hInv
    rw [h1]
    exact sumSizes_nonneg _ h4
  have hadd := SizedLRU.add_no_evict c.lru (cacheKey kind hash) ⟨n, false⟩
    (by rw [hrm]; exact hfit) (by rw [hrm]; exact hcur0)
  rw [hrm] at hadd
  have hfst : (c.lru.get (cacheKey kind hash)).1 = none := by
    rw [SizedLRU.get_fst]
    exact hkey
  have hg2 : (c.lru.get (cacheKey kind hash)).2 = c.lru :=
    SizedLRU.get_entries_of_none c.lru _ hkey
  simp only [putAdmit, hne, ite_false, hfst, hg2]
  unfold putAdd
  simp only [hadd]
  simp [applyEvictions]

/-- The state produced by a successful upload body: the temp file is written
and renamed onto the final path and the entry's committed flag is flipped. -/
theorem putBody_success_state (hashFn : List Nat → String) (c1 : DiskCache)
    (kind : EntryKind) (hash : String) (n : Int) (fx : PutFx)
    (hcr : fx.createOk = true) (hcp : fx.copyOk = true)
    (hsy : fx.syncOk = true) (hcl : fx.closeOk = true) (hrn : fx.renameOk = true)
    (hhc : ¬(kind = EntryKind.CAS ∧ hashFn fx.bytes ≠ hash))
    (heq : (fx.bytes.length : Int) = n) :
    putBody hashFn c1 kind hash n fx =
      (DiskCache.mk (c1.lru.setCommitted (cacheKey kind hash))
        (setA (eraseKeyA (setA c1.disk (cacheKey kind hash ++ ".tmp") fx.bytes)
          (cacheKey kind hash ++ ".tmp")) (cacheKey kind hash) fx.bytes) c1.proxy,
       none) := by
  simp only [putBody, hcr, hcp, hsy, hcl, hhc, hrn, heq]
  simp [heq, hrn]

/-- The dedup branch of Put: an uncommitted entry for the key makes Put
drain the reader and return success, only touching the entry's recency. -/
theorem put_drained (hashFn : List Nat → String) (c : DiskCache) (kind : EntryKind)
    (hash : String) (n : Int) (fx : PutFx) (it : LruItem)
    (hlen : hash.length = sha256HashStrSize)
    (hlk : c.lru.lookup (cacheKey kind hash) = some it) (hunc : it.committed = false) :
    Put hashFn c kind hash n fx =
      ({ c with lru := (c.lru.get (cacheKey kind hash)).2 }, none) := by
  have hne : ¬(hash.length ≠ sha256HashStrSize) := fun hc => hc hlen
  have hfst : (c.lru.get (cacheKey kind hash)).1 = some it := by
    rw [SizedLRU.get_fst]
    exact hlk
  have hadm : putAdmit c kind hash n =
      ({ c with lru := (c.lru.get (cacheKey kind hash)).2 }, PutAdmitRes.drained) := by
    simp only [putAdmit, hne, ite_false, hfst, hunc]
    simp
  unfold Put
  rw [hadm]

theorem SizedLRU.get_snd_eq (l : SizedLRU) (k : String) (it : LruItem)
    (es : List (String × LruItem)) (he : l.entries = es ++ [(k, it)])
    (hes : lookupA es k = none) : (l.get k).2 = l := by
  unfold SizedLRU.get
  have hlk : lookupA l.entries k = some it := by
    rw [he, lookupA_append_right _ _ _ hes, lookupA_cons, if_pos rfl]
  rw [hlk]
  have herase : eraseKeyA l.entries k ++ [(k, it)] = l.entries := by
    rw [he, eraseKeyA_append, eraseKeyA_of_lookupA_none _ _ hes]
    simp [eraseKeyA]
  show { l with entries := eraseKeyA l.entries k ++ [(k, it)] } = l
  rw [herase]

/-- C5: a put whose key already has an uncommitted index entry drains the
reader, writes nothing, leaves the entry's value unchanged (only its recency
moves) and returns success; consequently, when two puts race on the same new
key, the winner's admission inserts the entry, the loser's put is a
successful no-op, and the winner's upload body commits: exactly one final
file exists for the key, no temp file remains, and `num_items` grows by
exactly one. -/
theorem C5_concurrent_put_dedup (hashFn : List Nat → String) (c : DiskCache)
    (kind : EntryKind) (hash : String) (n : Int) (fx fx2 : PutFx)
    (hlen : hash.length = sha256HashStrSize) :
    (∀ it, c.lru.lookup (cacheKey kind hash) = some it → it.committed = false →
      (Put hashFn c kind hash n fx2).2 = none ∧
      (Put hashFn c kind hash n fx2).1.disk = c.disk ∧
      (∀ k, (Put hashFn c kind hash n fx2).1.lru.lookup k = c.lru.lookup k) ∧
      ((keysOf c.lru.entries).Nodup →
        (Put hashFn c kind hash n fx2).1.lru.entries.length = c.lru.entries.length)) ∧
    (c.lru.Inv → c.lru.lookup (cacheKey kind hash) = none →
      c.lru.currentSize + n ≤ c.lru.maxSize →
      fx.createOk = true → fx.copyOk = true → fx.syncOk = true → fx.closeOk = true →
      fx.renameOk = true → ¬(kind = EntryKind.CAS ∧ hashFn fx.bytes ≠ hash) →
      (fx.bytes.length : Int) = n →
      (putAdmit c kind hash n).2 = PutAdmitRes.admitted ∧
      (Put hashFn (putAdmit c kind hash n).1 kind hash n fx2).2 = none ∧
      (Put hashFn (putAdmit c kind hash n).1 kind hash n fx2).1.disk =
        (putAdmit c kind hash n).1.disk ∧
      (putBody hashFn (Put hashFn (putAdmit c kind hash n).1 kind hash n fx2).1
        kind hash n fx).2 = none ∧
      (putBody hashFn (Put hashFn (putAdmit c kind hash n).1 kind hash n fx2).1
        kind hash n fx).1.lru.lookup (cacheKey kind hash) = some ⟨n, true⟩ ∧
      lookupA (putBody hashFn (Put hashFn (putAdmit c kind hash n).1 kind hash n fx2).1
        kind hash n fx).1.disk (cacheKey kind hash) = some fx.bytes ∧
      lookupA (putBody hashFn (Put hashFn (putAdmit c kind hash n).1 kind hash n fx2).1
        kind hash n fx).1.disk (cacheKey kind hash ++ ".tmp") = none ∧
      (putBody hashFn (Put hashFn (putAdmit c kind hash n).1 kind hash n fx2).1
        kind hash n fx).1.lru.entries.length = c.lru.entries.length + 1) := by
  refine ⟨?_, ?_⟩
  · intro it hlk hunc
    rw [put_drained hashFn c kind hash n fx2 it hlen hlk hunc]
    exact ⟨rfl, rfl, fun k => SizedLRU.get_lookup c.lru _ k,
      fun hnd => SizedLRU.get_length c.lru _ it hnd hlk⟩
  · intro hInv hkey hfit hcr hcp hsy hcl hrn hhc heq
    have hkey2 : lookupA c.lru.entries (cacheKey kind hash) = none := hkey
    have hadm := putAdmit_fresh c kind hash n hlen hInv hkey hfit
    rw [hadm]
    have hlk1 : (SizedLRU.mk c.lru.maxSize (c.lru.currentSize + n)
        (c.lru.entries ++ [(cacheKey kind hash, (⟨n, false⟩ : LruItem))])).lookup
        (cacheKey kind hash) = some ⟨n, false⟩ := by
      unfold SizedLRU.lookup
      rw [lookupA_append_right _ _ _ hkey2, lookupA_cons, if_pos rfl]
    have hs2 : ((SizedLRU.mk c.lru.maxSize (c.lru.currentSize + n)
        (c.lru.entries ++ [(cacheKey kind hash, (⟨n, false⟩ : LruItem))])).get
        (cacheKey kind hash)).2 = SizedLRU.mk c.lru.maxSize (c.lru.currentSize + n)
        (c.lru.entries ++ [(cacheKey kind hash, (⟨n, false⟩ : LruItem))]) :=
      SizedLRU.get_snd_eq _ _ ⟨n, false⟩ c.lru.entries rfl hkey2
    have hdrain : Put hashFn (DiskCache.mk (SizedLRU.mk c.lru.maxSize (c.lru.currentSize + n)
        (c.lru.entries ++ [(cacheKey kind hash, ⟨n, false⟩)])) c.disk c.proxy)
        kind hash n fx2 =
        (DiskCache.mk (SizedLRU.mk c.lru.maxSize (c.lru.currentSize + n)
          (c.lru.entries ++ [(cacheKey kind hash, ⟨n, false⟩)])) c.disk c.proxy, none) := by
      rw [put_drained hashFn _ kind hash n fx2 ⟨n, false⟩ hlen hlk1 rfl]
      rw [show (DiskCache.mk (SizedLRU.mk c.lru.maxSize (c.lru.currentSize + n)
        (c.lru.entries ++ [(cacheKey kind hash, (⟨n, false⟩ : LruItem))])) c.disk c.proxy).lru =
        SizedLRU.mk c.lru.maxSize (c.lru.currentSize + n)
        (c.lru.entries ++ [(cacheKey kind hash, (⟨n, false⟩ : LruItem))]) from rfl, hs2]
    rw [hdrain]
    have hbody := putBody_success_state hashFn (DiskCache.mk (SizedLRU.mk c.lru.maxSize
      (c.lru.currentSize + n) (c.lru.entries ++ [(cacheKey kind hash, ⟨n, false⟩)]))
      c.disk c.proxy) kind hash n fx hcr hcp hsy hcl hrn hhc heq
    rw [hbody]
    refine ⟨rfl, rfl, rfl, rfl, ?_, lookupA_setA_self _ _ _, ?_, ?_⟩
    · show ((SizedLRU.mk c.lru.maxSize (c.lru.currentSize + n)
        (c.lru.entries ++ [(cacheKey kind hash, ⟨n, false⟩)])).setCommitted
        (cacheKey kind hash)).lookup (cacheKey kind hash) = some ⟨n, true⟩
      rw [SizedLRU.setCommitted_lookup_self, hlk1]
      rfl
    · show lookupA (setA _ (cacheKey kind hash) fx.bytes) (cacheKey kind hash ++ ".tmp") = none
      rw [lookupA_setA_ne _ _ _ _ (tmp_ne_key _)]
      exact lookupA_eraseKeyA_self _ _
    · show ((SizedLRU.mk c.lru.maxSize (c.lru.currentSize + n)
        (c.lru.entries ++ [(cacheKey kind hash, ⟨n, false⟩)])).setCommitted
        (cacheKey kind hash)).entries.length = c.lru.entries.length + 1
      rw [SizedLRU.setCommitted_length]
      simp

/-- Witness for C5: a two-client race on one fresh key in an empty cache. -/
theorem C5_concurrent_put_dedup_witness :
    (Put (fun _ => hashA) (putAdmit (DiskCache.mk ⟨10, 0, []⟩ [] none)
      EntryKind.CAS hashA 1).1 EntryKind.CAS hashA 1 (putFxOk [98])).2 = none ∧
    (putBody (fun _ => hashA) (Put (fun _ => hashA)
      (putAdmit (DiskCache.mk ⟨10, 0, []⟩ [] none) EntryKind.CAS hashA 1).1
      EntryKind.CAS hashA 1 (putFxOk [98])).1 EntryKind.CAS hashA 1
      (putFxOk [97])).1.lru.entries.length = 1 := by
  have h := (C5_concurrent_put_dedup (fun _ => hashA) (DiskCache.mk ⟨10, 0, []⟩ [] none)
    EntryKind.CAS hashA 1 (putFxOk [97]) (putFxOk [98]) (by decide)).2
    ⟨rfl, by norm_num, by norm_num, by simp, by simp [keysOf]⟩
    (by decide) (by norm_num) rfl rfl rfl rfl rfl
    (fun hc => hc.2 rfl) (by decide)
  exact ⟨h.2.1, h.2.2.2.2.2.2.2⟩

/-- Abbreviation for the engine state right after Put's admission inserted
the uncommitted entry: the recency move of the initial lookup followed by
the `lru.Add` and the eviction callback's file removals. -/
def admittedState (c : DiskCache) (key : String) (n : Int) : DiskCache :=
  DiskCache.mk ((c.lru.get key).2.add key ⟨n, false⟩).2.1
    (applyEvictions c.disk ((c.lru.get key).2.add key ⟨n, false⟩).2.2) c.proxy

/-- Admission from a state with no in-flight upload of the key: the entry,
if any, is committed, so Put proceeds to the `lru.Add`. -/
theorem putAdmit_quiet (c : DiskCache) (kind : EntryKind) (hash : String) (n : Int)
    (hlen : hash.length = sha256HashStrSize)
    (hquiet : ∀ it, c.lru.lookup (cacheKey kind hash) = some it → it.committed = true) :
    putAdmit c kind hash n =
      (admittedState c (cacheKey kind hash) n,
       if ((c.lru.get (cacheKey kind hash)).2.add (cacheKey kind hash) ⟨n, false⟩).1
       then PutAdmitRes.admitted else PutAdmitRes.tooBig) := by
  have hne : ¬(hash.length ≠ sha256HashStrSize) := fun hc => hc hlen
  have hstep : ∀ c1 : DiskCache, c1.disk = c.disk → c1.proxy = c.proxy →
      c1.lru = (c.lru.get (cacheKey kind hash)).2 →
      putAdd c1 (cacheKey kind hash) n =
      (admittedState c (cacheKey kind hash) n,
       if ((c.lru.get (cacheKey kind hash)).2.add (cacheKey kind hash) ⟨n, false⟩).1
       then PutAdmitRes.admitted else PutAdmitRes.tooBig) := by
    intro c1 hd hp hl
    refine Prod.ext ?_ ?_
    · rw [putAdd_fst]
      unfold admittedState
      rw [← hd, ← hp, ← hl]
    · rw [putAdd_snd, hl]
  simp only [putAdmit, hne, ite_false]
  cases hfst : (c.lru.get (cacheKey kind hash)).1 with
  | none =>
      simp only [hfst]
      exact hstep _ rfl rfl rfl
  | some it =>
      have hcom : it.committed = true := hquiet it (by rw [← SizedLRU.get_fst]; exact hfst)
      simp only [hfst, hcom, ite_true]
      exact hstep _ rfl rfl rfl

/-- C2: for a CAS blob B whose declared digest is the hash of its bytes and
which the cache admits (the put returns success), putting B and then getting
it yields a reader over exactly B with reported size equal to B's length.
The quiescence hypothesis says no upload of the same key is in flight when
the put starts (an entry for the key, if any, is committed); sequential
operation sequences only produce such states between operations. -/
theorem C2_cas_roundtrip (hashFn : List Nat → String) (c : DiskCache)
    (hash : String) (B : List Nat) (gfx : GetFx)
    (hlen : hash.length = sha256HashStrSize)
    (hhash : hashFn B = hash)
    (hquiet : ∀ it, c.lru.lookup (cacheKey EntryKind.CAS hash) = some it →
      it.committed = true)
    (hok : (Put hashFn c EntryKind.CAS hash (B.length : Int) (putFxOk B)).2 = none) :
    (Get (Put hashFn c EntryKind.CAS hash (B.length : Int) (putFxOk B)).1
      EntryKind.CAS hash gfx).2 =
      ⟨some B, (B.length : Int), none⟩ := by
  have hne : ¬(hash.length ≠ sha256HashStrSize) := fun hc => hc hlen
  have hadm := putAdmit_quiet c EntryKind.CAS hash (B.length : Int) hlen hquiet
  by_cases haddok : ((c.lru.get (cacheKey EntryKind.CAS hash)).2.add
      (cacheKey EntryKind.CAS hash) ⟨(B.length : Int), false⟩).1 = true
  · rw [haddok, if_pos rfl] at hadm
    have hput : Put hashFn c EntryKind.CAS hash (B.length : Int) (putFxOk B) =
        putBody hashFn (admittedState c (cacheKey EntryKind.CAS hash) (B.length : Int))
          EntryKind.CAS hash (B.length : Int) (putFxOk B) := by
      unfold Put
      rw [hadm]
    have hbody := putBody_success_state hashFn
      (admittedState c (cacheKey EntryKind.CAS hash) (B.length : Int))
      EntryKind.CAS hash (B.length : Int) (putFxOk B) rfl rfl rfl rfl rfl
      (fun hc2 => hc2.2 hhash) rfl
    rw [hput, hbody]
    have hlkF : ((admittedState c (cacheKey EntryKind.CAS hash)
        (B.length : Int)).lru.setCommitted (cacheKey EntryKind.CAS hash)).lookup
        (cacheKey EntryKind.CAS hash) = some ⟨(B.length : Int), true⟩ := by
      rw [SizedLRU.setCommitted_lookup_self]
      unfold admittedState
      rw [SizedLRU.add_lookup_self _ _ _ haddok]
      rfl
    have hfstF : (((admittedState c (cacheKey EntryKind.CAS hash)
        (B.length : Int)).lru.setCommitted (cacheKey EntryKind.CAS hash)).get
        (cacheKey EntryKind.CAS hash)).1 = some ⟨(B.length : Int), true⟩ := by
      rw [SizedLRU.get_fst]
      exact hlkF
    simp only [Get, hne, ite_false, availableOrTryProxy, hfstF]
    simp only [ite_true]
    rw [lookupA_setA_self]
    rfl
  · exfalso
    rw [eq_false_of_ne_true haddok, if_neg (by simp)] at hadm
    have hput2 : (Put hashFn c EntryKind.CAS hash (B.length : Int) (putFxOk B)).2 =
        some CacheErr.tooBig := by
      unfold Put
      rw [hadm]
    rw [hput2] at hok
    cases hok

/-- Witness for C2: a one-byte blob round-trips through an empty cache. -/
theorem C2_cas_roundtrip_witness :
    (Get (Put (fun bs => if bs = [97] then hashA else hashB)
      (DiskCache.mk ⟨10, 0, []⟩ [] none) EntryKind.CAS hashA ((1 : Nat) : Int)
      (putFxOk [97])).1 EntryKind.CAS hashA getFxOk).2 =
      ⟨some [97], ((1 : Nat) : Int), none⟩ := by
  have h := C2_cas_roundtrip (fun bs => if bs = [97] then hashA else hashB)
    (DiskCache.mk ⟨10, 0, []⟩ [] none) hashA [97] getFxOk (by decide) (by decide)
    (fun it hit => by cases hit) (by decide)
  exact h

theorem get_miss_of_absent (c : DiskCache) (kind : EntryKind) (hash : String)
    (gfx : GetFx) (hlen : hash.length = sha256HashStrSize)
    (habs : c.lru.lookup (cacheKey kind hash) = none) (hpn : c.proxy = none) :
    (Get c kind hash gfx).2 = ⟨none, -1, none⟩ := by
  have hne : ¬(hash.length ≠ sha256HashStrSize) := fun hc => hc hlen
  have hfst : (c.lru.get (cacheKey kind hash)).1 = none := by
    rw [SizedLRU.get_fst]
    exact habs
  simp only [Get, hne, ite_false, availableOrTryProxy, hfst, hpn]
  simp

theorem contains_miss_of_absent (c : DiskCache) (kind : EntryKind) (hash : String)
    (hlen : hash.length = sha256HashStrSize)
    (habs : c.lru.lookup (cacheKey kind hash) = none) (hpn : c.proxy = none) :
    (Contains c kind hash).2 = (false, -1) := by
  have hne : ¬(hash.length ≠ sha256HashStrSize) := fun hc => hc hlen
  have hfst : (c.lru.get (cacheKey kind hash)).1 = none := by
    rw [SizedLRU.get_fst]
    exact habs
  simp only [Contains, hne, ite_false, hfst, hpn]

theorem putBody_err_disk (hashFn : List Nat → String) (c1 : DiskCache)
    (kind : EntryKind) (hash : String) (n : Int) (fx : PutFx) (e : CacheErr)
    (p : String) (hp : p ≠ cacheKey kind hash ++ ".tmp") :
    (putBody hashFn c1 kind hash n fx).2 = some e →
    lookupA (putBody hashFn c1 kind hash n fx).1.disk p = lookupA c1.disk p := by
  have herase : lookupA (eraseKeyA (setA c1.disk (cacheKey kind hash ++ ".tmp") fx.bytes)
      (cacheKey kind hash ++ ".tmp")) p = lookupA c1.disk p := by
    rw [lookupA_eraseKeyA_ne _ _ _ hp, lookupA_setA_ne _ _ _ _ hp]
  simp only [putBody, putCleanup]
  split
  · intro _
    simp only [ite_false]
    rfl
  · split
    · intro _
      simpa using herase
    · split
      · intro _
        simpa using herase
      · split
        · intro _
          simpa using herase
        · split
          · intro _
            simpa using herase
          · split
            · intro _
              simpa using herase
            · split
              · intro hcon
                cases hcon
              · intro _
                simpa using herase

theorem putBody_proxy (hashFn : List Nat → String) (c1 : DiskCache)
    (kind : EntryKind) (hash : String) (n : Int) (fx : PutFx) :
    (putBody hashFn c1 kind hash n fx).1.proxy = c1.proxy := by
  simp only [putBody, putCleanup]
  split
  · rfl
  · split
    · rfl
    · split
      · rfl
      · split
        · rfl
        · split
          · rfl
          · split
            · rfl
            · split
              · rfl
              · rfl

/-- Admission over an existing committed entry: the old entry is replaced by
the fresh uncommitted one (its size leaves the accounting, the declared size
enters), with no eviction when the budget accommodates the swap. -/
theorem putAdmit_overwrite (c : DiskCache) (kind : EntryKind) (hash : String)
    (n : Int) (it : LruItem) (hlen : hash.length = sha256HashStrSize)
    (hInv : c.lru.Inv) (hold : c.lru.lookup (cacheKey kind hash) = some it)
    (hcom : it.committed = true)
    (hnoev : c.lru.currentSize - it.size + n ≤ c.lru.maxSize) :
    putAdmit c kind hash n =
      (DiskCache.mk (SizedLRU.mk c.lru.maxSize (c.lru.currentSize - it.size + n)
        (eraseKeyA c.lru.entries (cacheKey kind hash) ++ [(cacheKey kind hash, ⟨n, false⟩)]))
        c.disk c.proxy,
       PutAdmitRes.admitted) := by
  have hne : ¬(hash.length ≠ sha256HashStrSize) := fun hc => hc hlen
  obtain ⟨h1, h2, h3, h4, h5⟩ := hInv
  have hold2 : lookupA c.lru.entries (cacheKey kind hash) = some it := hold
  have hmoved : (c.lru.get (cacheKey kind hash)).2 =
      SizedLRU.mk c.lru.maxSize c.lru.currentSize
        (eraseKeyA c.lru.entries (cacheKey kind hash) ++ [(cacheKey kind hash, it)]) := by
    unfold SizedLRU.get
    rw [hold2]
  have hlkm : lookupA (eraseKeyA c.lru.entries (cacheKey kind hash) ++
      [(cacheKey kind hash, it)]) (cacheKey kind hash) = some it := by
    rw [lookupA_append_right _ _ _ (lookupA_eraseKeyA_self _ _), lookupA_cons, if_pos rfl]
  have herase2 : eraseKeyA (eraseKeyA c.lru.entries (cacheKey kind hash) ++
      [(cacheKey kind hash, it)]) (cacheKey kind hash) =
      eraseKeyA c.lru.entries (cacheKey kind hash) := by
    rw [eraseKeyA_append, eraseKeyA_of_lookupA_none _ _ (lookupA_eraseKeyA_self _ _)]
    simp [eraseKeyA]
  have hrm : (SizedLRU.mk c.lru.maxSize c.lru.currentSize
      (eraseKeyA c.lru.entries (cacheKey kind hash) ++ [(cacheKey kind hash, it)])).remove
      (cacheKey kind hash) =
      SizedLRU.mk c.lru.maxSize (c.lru.currentSize - it.size)
        (eraseKeyA c.lru.entries (cacheKey kind hash)) := by
    unfold SizedLRU.remove
    simp only [hlkm, herase2]
  have hcur0 : 0 ≤ c.lru.currentSize - it.size := by
    have := sumSizes_eraseKeyA c.lru.entries (cacheKey kind hash) it h5 hold2
    have hge := sumSizes_nonneg (eraseKeyA c.lru.entries (cacheKey kind hash))
      (fun p hp => h4 p (List.mem_of_mem_filter hp))
    omega
  have hadd := SizedLRU.add_no_evict (SizedLRU.mk c.lru.maxSize c.lru.currentSize
      (eraseKeyA c.lru.entries (cacheKey kind hash) ++ [(cacheKey kind hash, it)]))
      (cacheKey kind hash) ⟨n, false⟩
      (by rw [hrm]; exact hnoev) (by rw [hrm]; exact hcur0)
  rw [hrm] at hadd
  have hfst : (c.lru.get (cacheKey kind hash)).1 = some it := by
    rw [SizedLRU.get_fst]
    exact hold
  simp only [putAdmit, hne, ite_false, hfst, hcom, ite_true]
  unfold putAdd
  simp only [hmoved, hadd]
  simp [applyEvictions]

/-- C10: when a put overwrites a committed entry and then fails, the key is
removed from the index entirely (the previous committed entry is not
restored), so subsequent get and contains (with no proxy) report the key
absent, while the previous final file is never unlinked and its content
remains on disk.  Hypotheses: no eviction is needed for the admission and no
stale temp file for the key pre-exists. -/
theorem C10_failed_overwrite_drops_key (hashFn : List Nat → String) (c : DiskCache)
    (kind : EntryKind) (hash : String) (n : Int) (fx : PutFx) (gfx : GetFx)
    (it : LruItem) (oldContent : List Nat) (e : CacheErr)
    (hlen : hash.length = sha256HashStrSize)
    (hpn : c.proxy = none)
    (hInv : c.lru.Inv)
    (hold : c.lru.lookup (cacheKey kind hash) = some it)
    (hcom : it.committed = true)
    (holdfile : lookupA c.disk (cacheKey kind hash) = some oldContent)
    (hnoev : c.lru.currentSize - it.size + n ≤ c.lru.maxSize)
    (htmp : lookupA c.disk (cacheKey kind hash ++ ".tmp") = none)
    (herr : (Put hashFn c kind hash n fx).2 = some e) :
    (Put hashFn c kind hash n fx).1.lru.lookup (cacheKey kind hash) = none ∧
    lookupA (Put hashFn c kind hash n fx).1.disk (cacheKey kind hash) = some oldContent ∧
    (Get (Put hashFn c kind hash n fx).1 kind hash gfx).2 = ⟨none, -1, none⟩ ∧
    (Contains (Put hashFn c kind hash n fx).1 kind hash).2 = (false, -1) := by
  have hadm := putAdmit_overwrite c kind hash n it hlen hInv hold hcom hnoev
  have hput : Put hashFn c kind hash n fx =
      putBody hashFn (DiskCache.mk (SizedLRU.mk c.lru.maxSize
        (c.lru.currentSize - it.size + n) (eraseKeyA c.lru.entries (cacheKey kind hash) ++
        [(cacheKey kind hash, ⟨n, false⟩)])) c.disk c.proxy) kind hash n fx := by
    unfold Put
    rw [hadm]
  rw [hput] at herr ⊢
  have hclean := putBody_err_cleanup hashFn (DiskCache.mk (SizedLRU.mk c.lru.maxSize
    (c.lru.currentSize - it.size + n) (eraseKeyA c.lru.entries (cacheKey kind hash) ++
    [(cacheKey kind hash, ⟨n, false⟩)])) c.disk c.proxy) kind hash n fx e htmp herr
  have hdisk := putBody_err_disk hashFn (DiskCache.mk (SizedLRU.mk c.lru.maxSize
    (c.lru.currentSize - it.size + n) (eraseKeyA c.lru.entries (cacheKey kind hash) ++
    [(cacheKey kind hash, ⟨n, false⟩)])) c.disk c.proxy) kind hash n fx e
    (cacheKey kind hash) (key_ne_tmp _) herr
  have hproxy : (putBody hashFn (DiskCache.mk (SizedLRU.mk c.lru.maxSize
      (c.lru.currentSize - it.size + n) (eraseKeyA c.lru.entries (cacheKey kind hash) ++
      [(cacheKey kind hash, ⟨n, false⟩)])) c.disk c.proxy) kind hash n fx).1.proxy = none := by
    rw [putBody_proxy]
    exact hpn
  refine ⟨hclean.1, ?_, ?_, ?_⟩
  · rw [hdisk]
    exact holdfile
  · exact get_miss_of_absent _ kind hash gfx hlen hclean.1 hproxy
  · exact contains_miss_of_absent _ kind hash hlen hclean.1 hproxy

/-- Witness for C10: a failed one-byte overwrite (rename failure) of a
committed one-byte entry in a ten-byte cache. -/
theorem C10_failed_overwrite_drops_key_witness :
    (Put (fun _ => hashB) (DiskCache.mk ⟨10, 1, [(cacheKey EntryKind.CAS hashA, ⟨1, true⟩)]⟩
      [(cacheKey EntryKind.CAS hashA, [97])] none) EntryKind.CAS hashA 1
      ⟨true, true, [97], true, true, false⟩).1.lru.lookup (cacheKey EntryKind.CAS hashA) = none ∧
    lookupA (Put (fun _ => hashB) (DiskCache.mk ⟨10, 1,
      [(cacheKey EntryKind.CAS hashA, ⟨1, true⟩)]⟩
      [(cacheKey EntryKind.CAS hashA, [97])] none) EntryKind.CAS hashA 1
      ⟨true, true, [97], true, true, false⟩).1.disk (cacheKey EntryKind.CAS hashA) =
      some [97] := by
  have h := C10_failed_overwrite_drops_key (fun _ => hashB)
    (DiskCache.mk ⟨10, 1, [(cacheKey EntryKind.CAS hashA, ⟨1, true⟩)]⟩
      [(cacheKey EntryKind.CAS hashA, [97])] none) EntryKind.CAS hashA 1
    ⟨true, true, [97], true, true, false⟩ getFxOk ⟨1, true⟩ [97] CacheErr.hashMismatch
    (by decide) rfl
    ⟨rfl, by norm_num, by norm_num, by decide, by decide⟩
    (by decide) rfl (by decide) (by norm_num) (by decide) (by decide)
  exact ⟨h.1, h.2.1⟩

/-! ### Observational state equivalence for the validator walk -/

/-- Two engine states that agree on index lookups, the file store, and the
proxy: `Contains` and (without a proxy) `Get` answer identically in both. -/
def ObsEquiv (c1 c2 : DiskCache) : Prop :=
  (∀ k, c1.lru.lookup k = c2.lru.lookup k) ∧ c1.disk = c2.disk ∧ c1.proxy = c2.proxy

theorem ObsEquiv.refl (c : DiskCache) : ObsEquiv c c := ⟨fun _ => rfl, rfl, rfl⟩

theorem ObsEquiv.trans {c1 c2 c3 : DiskCache} (h1 : ObsEquiv c1 c2) (h2 : ObsEquiv c2 c3) :
    ObsEquiv c1 c3 :=
  ⟨fun k => (h1.1 k).trans (h2.1 k), h1.2.1.trans h2.2.1, h1.2.2.trans h2.2.2⟩

theorem Contains_congr (c1 c2 : DiskCache) (kind : EntryKind) (hash : String)
    (h : ObsEquiv c1 c2) : (Contains c1 kind hash).2 = (Contains c2 kind hash).2 := by
  obtain ⟨hl, hd, hp⟩ := h
  by_cases hlen : hash.length ≠ sha256HashStrSize
  · simp [Contains, hlen]
  · have hf1 : (c1.lru.get (cacheKey kind hash)).1 = c2.lru.lookup (cacheKey kind hash) := by
      rw [SizedLRU.get_fst, hl]
    have hf2 : (c2.lru.get (cacheKey kind hash)).1 = c2.lru.lookup (cacheKey kind hash) :=
      SizedLRU.get_fst c2.lru _
    cases hc : c2.lru.lookup (cacheKey kind hash) with
    | none =>
        simp only [Contains, hlen, ite_false, hf1, hf2, hc, hp]
        cases c2.proxy <;> rfl
    | some it =>
        by_cases hcom : it.committed
        · simp only [Contains, hlen, ite_false, hf1, hf2, hc, hcom, ite_true]
        · simp only [Contains, hlen, ite_false, hf1, hf2, hc, hcom, ite_false, hp]
          simp only [Bool.false_eq_true, ite_false]
          cases c2.proxy <;> rfl

theorem Contains_fst_eq (c : DiskCache) (kind : EntryKind) (hash : String) :
    (Contains c kind hash).1 = c ∨
    (Contains c kind hash).1 = { c with lru := (c.lru.get (cacheKey kind hash)).2 } := by
  simp only [Contains]
  split
  · exact Or.inl rfl
  · split
    · split
      · exact Or.inr rfl
      · split
        · exact Or.inr rfl
        · exact Or.inr rfl
    · split
      · exact Or.inr rfl
      · exact Or.inr rfl

theorem Contains_obs (c : DiskCache) (kind : EntryKind) (hash : String) :
    ObsEquiv (Contains c kind hash).1 c := by
  rcases Contains_fst_eq c kind hash with h | h <;> rw [h]
  · exact ObsEquiv.refl c
  · exact ⟨fun k => SizedLRU.get_lookup c.lru _ k, rfl, rfl⟩

theorem Get_fst_noproxy (c : DiskCache) (kind : EntryKind) (hash : String) (gfx : GetFx)
    (hpn : c.proxy = none) :
    (Get c kind hash gfx).1 = c ∨
    (Get c kind hash gfx).1 = { c with lru := (c.lru.get (cacheKey kind hash)).2 } := by
  by_cases hlen : hash.length ≠ sha256HashStrSize
  · simp [Get, hlen]
  · simp only [Get, hlen, ite_false, availableOrTryProxy]
    cases hfst : (c.lru.get (cacheKey kind hash)).1 with
    | none =>
        simp only [hfst, hpn]
        exact Or.inr rfl
    | some it =>
        by_cases hcom : it.committed
        · simp only [hfst, hcom, ite_true]
          cases lookupA c.disk (cacheKey kind hash) <;> exact Or.inr rfl
        · simp only [hfst, hcom]
          simp only [Bool.false_eq_true, ite_false]
          exact Or.inr (by simp [hcom])
  
theorem Get_obs_noproxy (c : DiskCache) (kind : EntryKind) (hash : String) (gfx : GetFx)
    (hpn : c.proxy = none) : ObsEquiv (Get c kind hash gfx).1 c := by
  rcases Get_fst_noproxy c kind hash gfx hpn with h | h <;> rw [h]
  · exact ObsEquiv.refl c
  · exact ⟨fun k => SizedLRU.get_lookup c.lru _ k, rfl, rfl⟩

theorem Get_congr_noproxy (c1 c2 : DiskCache) (kind : EntryKind) (hash : String)
    (gfx : GetFx) (h : ObsEquiv c1 c2) (hpn : c2.proxy = none) :
    (Get c1 kind hash gfx).2 = (Get c2 kind hash gfx).2 := by
  obtain ⟨hl, hd, hp⟩ := h
  by_cases hlen : hash.length ≠ sha256HashStrSize
  · simp [Get, hlen]
  · have hf1 : (c1.lru.get (cacheKey kind hash)).1 = c2.lru.lookup (cacheKey kind hash) := by
      rw [SizedLRU.get_fst, hl]
    have hf2 : (c2.lru.get (cacheKey kind hash)).1 = c2.lru.lookup (cacheKey kind hash) :=
      SizedLRU.get_fst c2.lru _
    cases hc : c2.lru.lookup (cacheKey kind hash) with
    | none =>
        simp only [Get, hlen, ite_false, availableOrTryProxy, hf1, hf2, hc, hp, hpn]
        simp
    | some it =>
        by_cases hcom : it.committed
        · simp only [Get, hlen, ite_false, availableOrTryProxy, hf1, hf2, hc, hcom,
            ite_true, hd]
          cases lookupA c2.disk (cacheKey kind hash) <;> rfl
        · simp only [Get, hlen, ite_false, availableOrTryProxy, hf1, hf2, hc, hcom]
          simp only [Bool.false_eq_true, ite_false]

theorem checkOutputFiles_obs : ∀ (fs : List PBOutputFile) (c : DiskCache),
    ObsEquiv (checkOutputFiles c fs).1 c := by
  intro fs
  induction fs with
  | nil => intro c; exact ObsEquiv.refl c
  | cons f rest ih =>
      intro c
      by_cases hcond : f.contents = [] ∧ 0 < f.digest.sizeBytes
      · by_cases hfound : (Contains c EntryKind.CAS f.digest.hash).2.1 = true
        · simp only [checkOutputFiles, hcond, ite_true, hfound]
          exact (ih _).trans (Contains_obs c _ _)
        · simp only [checkOutputFiles, hcond, ite_true, hfound, ite_false]
          exact Contains_obs c _ _
      · simp only [checkOutputFiles, hcond, ite_false]
        exact ih c

theorem checkOutputFiles_true_imp : ∀ (fs : List PBOutputFile) (c : DiskCache),
    (checkOutputFiles c fs).2 = true →
    ∀ f ∈ fs, f.contents = [] → 0 < f.digest.sizeBytes →
      (Contains c EntryKind.CAS f.digest.hash).2.1 = true := by
  intro fs
  induction fs with
  | nil => intro c _ f hf; cases hf
  | cons f0 rest ih =>
      intro c htrue f hf hc1 hc2
      by_cases hcond : f0.contents = [] ∧ 0 < f0.digest.sizeBytes
      · by_cases hfound : (Contains c EntryKind.CAS f0.digest.hash).2.1 = true
        · simp only [checkOutputFiles, hcond, ite_true, hfound] at htrue
          rcases List.mem_cons.mp hf with he | hf2
          · rw [he]
            exact hfound
          · have h2 := ih _ htrue f hf2 hc1 hc2
            rw [Contains_congr _ c _ _ (Contains_obs c _ _)] at h2
            exact h2
        · simp only [checkOutputFiles, hcond, ite_true, hfound, ite_false] at htrue
          simp at htrue
      · simp only [checkOutputFiles, hcond, ite_false] at htrue
        rcases List.mem_cons.mp hf with he | hf2
        · exfalso
          apply hcond
          rw [he] at hc1 hc2
          exact ⟨hc1, hc2⟩
        · exact ih c htrue f hf2 hc1 hc2

theorem checkFileNodes_obs : ∀ (ns : List PBFileNode) (c : DiskCache),
    ObsEquiv (checkFileNodes c ns).1 c := by
  intro ns
  induction ns with
  | nil => intro c; exact ObsEquiv.refl c
  | cons fn rest ih =>
      intro c
      cases hd : fn.digest with
      | none =>
          simp only [checkFileNodes, hd]
          exact ih c
      | some d =>
          by_cases hfound : (Contains c EntryKind.CAS d.hash).2.1 = true
          · simp only [checkFileNodes, hd, hfound, ite_true]
            exact (ih _).trans (Contains_obs c _ _)
          · simp only [checkFileNodes, hd, hfound, ite_false]
            exact Contains_obs c _ _

theorem checkFileNodes_true_imp : ∀ (ns : List PBFileNode) (c : DiskCache),
    (checkFileNodes c ns).2 = true →
    ∀ fn ∈ ns, ∀ d, fn.digest = some d → (Contains c EntryKind.CAS d.hash).2.1 = true := by
  intro ns
  induction ns with
  | nil => intro c _ fn hfn; cases hfn
  | cons fn0 rest ih =>
      intro c htrue fn hfn d hd
      cases hd0 : fn0.digest with
      | none =>
          simp only [checkFileNodes, hd0] at htrue
          rcases List.mem_cons.mp hfn with he | hf2
          · exfalso
            rw [he, hd0] at hd
            cases hd
          · exact ih c htrue fn hf2 d hd
      | some d0 =>
          by_cases hfound : (Contains c EntryKind.CAS d0.hash).2.1 = true
          · simp only [checkFileNodes, hd0, hfound, ite_true] at htrue
            rcases List.mem_cons.mp hfn with he | hf2
            · rw [he, hd0] at hd
              cases hd
              exact hfound
            · have h2 := ih _ htrue fn hf2 d hd
              rw [Contains_congr _ c _ _ (Contains_obs c _ _)] at h2
              exact h2
          · simp only [checkFileNodes, hd0, hfound, ite_false] at htrue
            simp at htrue

theorem checkChildDirs_obs : ∀ (ds : List PBDirectory) (c : DiskCache),
    ObsEquiv (checkChildDirs c ds).1 c := by
  intro ds
  induction ds with
  | nil => intro c; exact ObsEquiv.refl c
  | cons d rest ih =>
      intro c
      by_cases hok : (checkFileNodes c d.files).2 = true
      · simp only [checkChildDirs, hok, ite_true]
        exact (ih _).trans (checkFileNodes_obs d.files c)
      · simp only [checkChildDirs, hok, ite_false]
        exact checkFileNodes_obs d.files c

theorem checkChildDirs_true_imp : ∀ (ds : List PBDirectory) (c : DiskCache),
    (checkChildDirs c ds).2 = true →
    ∀ dir ∈ ds, ∀ fn ∈ dir.files, ∀ d, fn.digest = some d →
      (Contains c EntryKind.CAS d.hash).2.1 = true := by
  intro ds
  induction ds with
  | nil => intro c _ dir hdir; cases hdir
  | cons d0 rest ih =>
      intro c htrue dir hdir fn hfn d hd
      by_cases hok : (checkFileNodes c d0.files).2 = true
      · simp only [checkChildDirs, hok, ite_true] at htrue
        rcases List.mem_cons.mp hdir with he | hd2
        · exact checkFileNodes_true_imp d0.files c hok fn (he ▸ hfn) d hd
        · have h2 := ih _ htrue dir hd2 fn hfn d hd
          rw [Contains_congr _ c _ _ (checkFileNodes_obs d0.files c)] at h2
          exact h2
      · simp only [checkChildDirs, hok, ite_false] at htrue
        simp at htrue

theorem checkStdDigest_obs (c : DiskCache) (d : Option PBDigest) :
    ObsEquiv (checkStdDigest c d).1 c := by
  cases d with
  | none => exact ObsEquiv.refl c
  | some dd =>
      by_cases hsz : 0 < dd.sizeBytes
      · simp only [checkStdDigest, hsz, ite_true]
        exact Contains_obs c _ _
      · simp only [checkStdDigest, hsz, ite_false]
        exact ObsEquiv.refl c

theorem checkStdDigest_true_imp (c : DiskCache) (d : PBDigest)
    (htrue : (checkStdDigest c (some d)).2 = true) (hsz : 0 < d.sizeBytes) :
    (Contains c EntryKind.CAS d.hash).2.1 = true := by
  simp only [checkStdDigest, hsz, ite_true] at htrue
  exact htrue

/-- Every CAS digest referenced from a Tree's root directory and child
directories is present according to `Contains`. -/
def treeNodesPresent (c : DiskCache) (tree : PBTree) : Prop :=
  (∀ fn ∈ tree.rootFiles, ∀ d, fn.digest = some d →
    (Contains c EntryKind.CAS d.hash).2.1 = true) ∧
  (∀ dir ∈ tree.children, ∀ fn ∈ dir.files, ∀ d, fn.digest = some d →
    (Contains c EntryKind.CAS d.hash).2.1 = true)

theorem treeNodesPresent_congr (c1 c2 : DiskCache) (tree : PBTree)
    (h : ObsEquiv c1 c2) : treeNodesPresent c1 tree ↔ treeNodesPresent c2 tree := by
  have hc : ∀ hsh, (Contains c1 EntryKind.CAS hsh).2.1 = (Contains c2 EntryKind.CAS hsh).2.1 :=
    fun hsh => congrArg Prod.fst (Contains_congr c1 c2 _ hsh h)
  unfold treeNodesPresent
  constructor
  · rintro ⟨h1, h2⟩
    refine ⟨fun fn hfn d hd => ?_, fun dir hdir fn hfn d hd => ?_⟩
    · rw [← hc d.hash]
      exact h1 fn hfn d hd
    · rw [← hc d.hash]
      exact h2 dir hdir fn hfn d hd
  · rintro ⟨h1, h2⟩
    refine ⟨fun fn hfn d hd => ?_, fun dir hdir fn hfn d hd => ?_⟩
    · rw [hc d.hash]
      exact h1 fn hfn d hd
    · rw [hc d.hash]
      exact h2 dir hdir fn hfn d hd

theorem checkOutputDirs_spec (parseTree : List Nat → Option PBTree) (gfx : GetFx) :
    ∀ (dirs : List PBOutputDirectory) (c : DiskCache), c.proxy = none →
    (∀ d ∈ dirs, ∃ bs tree, (Get c EntryKind.CAS d.treeDigest.hash gfx).2 =
      ⟨some bs, d.treeDigest.sizeBytes, none⟩ ∧ parseTree bs = some tree) →
    ObsEquiv (checkOutputDirs parseTree gfx c dirs).1 c ∧
    (∀ e, (checkOutputDirs parseTree gfx c dirs).2 ≠ StepRes.fail e) ∧
    ((∃ d ∈ dirs, ∃ bs tree, (Get c EntryKind.CAS d.treeDigest.hash gfx).2.data = some bs ∧
      parseTree bs = some tree ∧ ¬ treeNodesPresent c tree) →
     (checkOutputDirs parseTree gfx c dirs).2 = StepRes.notFound) := by
  intro dirs
  induction dirs with
  | nil =>
      intro c _ _
      refine ⟨ObsEquiv.refl c, ?_, ?_⟩
      · intro e h
        cases h
      · intro hex
        obtain ⟨d, hd, _⟩ := hex
        cases hd
  | cons d rest ih =>
      intro c hpn hclean
      obtain ⟨bs, tree, hget, hpt⟩ := hclean d (List.mem_cons_self d rest)
      have hobsGet := Get_obs_noproxy c EntryKind.CAS d.treeDigest.hash gfx hpn
      have hred : checkOutputDirs parseTree gfx c (d :: rest) =
          (if (checkFileNodes (Get c EntryKind.CAS d.treeDigest.hash gfx).1 tree.rootFiles).2
           then (if (checkChildDirs (checkFileNodes (Get c EntryKind.CAS d.treeDigest.hash
              gfx).1 tree.rootFiles).1 tree.children).2
             then checkOutputDirs parseTree gfx (checkChildDirs (checkFileNodes
               (Get c EntryKind.CAS d.treeDigest.hash gfx).1 tree.rootFiles).1
               tree.children).1 rest
             else ((checkChildDirs (checkFileNodes (Get c EntryKind.CAS d.treeDigest.hash
               gfx).1 tree.rootFiles).1 tree.children).1, StepRes.notFound))
           else ((checkFileNodes (Get c EntryKind.CAS d.treeDigest.hash gfx).1
             tree.rootFiles).1, StepRes.notFound)) := by
        simp only [checkOutputDirs, hget]
        simp [hpt]
      have hobsFN := checkFileNodes_obs tree.rootFiles
        (Get c EntryKind.CAS d.treeDigest.hash gfx).1
      by_cases hrr : (checkFileNodes (Get c EntryKind.CAS d.treeDigest.hash gfx).1
          tree.rootFiles).2 = true
      · have hobsCD := checkChildDirs_obs tree.children (checkFileNodes
          (Get c EntryKind.CAS d.treeDigest.hash gfx).1 tree.rootFiles).1
        by_cases hrc : (checkChildDirs (checkFileNodes (Get c EntryKind.CAS
            d.treeDigest.hash gfx).1 tree.rootFiles).1 tree.children).2 = true
        · -- both sub-checks pass: recurse, and the head tree is fully present
          have hobsS : ObsEquiv (checkChildDirs (checkFileNodes (Get c EntryKind.CAS
              d.treeDigest.hash gfx).1 tree.rootFiles).1 tree.children).1 c :=
            (hobsCD.trans hobsFN).trans hobsGet
          have hpnS : (checkChildDirs (checkFileNodes (Get c EntryKind.CAS
              d.treeDigest.hash gfx).1 tree.rootFiles).1 tree.children).1.proxy = none :=
            hobsS.2.2.trans hpn
          have hcleanS : ∀ d2 ∈ rest, ∃ bs2 tree2,
              (Get (checkChildDirs (checkFileNodes (Get c EntryKind.CAS
                d.treeDigest.hash gfx).1 tree.rootFiles).1 tree.children).1
                EntryKind.CAS d2.treeDigest.hash gfx).2 =
              ⟨some bs2, d2.treeDigest.sizeBytes, none⟩ ∧ parseTree bs2 = some tree2 := by
            intro d2 hd2
            obtain ⟨bs2, tree2, hg2, hp2⟩ := hclean d2 (List.mem_cons_of_mem d hd2)
            refine ⟨bs2, tree2, ?_, hp2⟩
            rw [Get_congr_noproxy _ c _ _ gfx hobsS hpn]
            exact hg2
          obtain ⟨ihObs, ihA, ihB⟩ := ih _ hpnS hcleanS
          have hpresent : treeNodesPresent c tree := by
            have hroot := checkFileNodes_true_imp tree.rootFiles _ hrr
            have hchild := checkChildDirs_true_imp tree.children _ hrc
            constructor
            · intro fn hfn dd hdd
              have h2 := hroot fn hfn dd hdd
              rw [Contains_congr _ c _ _ hobsGet] at h2
              exact h2
            · intro dir hdir fn hfn dd hdd
              have h2 := hchild dir hdir fn hfn dd hdd
              rw [Contains_congr _ c _ _ (hobsFN.trans hobsGet)] at h2
              exact h2
          rw [hred]
          simp only [hrr, hrc, ite_true]
          refine ⟨ihObs.trans hobsS, ihA, ?_⟩
          intro hex
          obtain ⟨d0, hd0, bs0, tree0, hdata0, hpt0, habs0⟩ := hex
          rcases List.mem_cons.mp hd0 with he | hd02
          · exfalso
            subst he
            have hbs : bs0 = bs := by
              have h3 : (Get c EntryKind.CAS d0.treeDigest.hash gfx).2.data = some bs := by
                rw [hget]
              rw [h3] at hdata0
              cases hdata0
              rfl
            rw [hbs, hpt] at hpt0
            cases hpt0
            exact habs0 hpresent
          · apply ihB
            refine ⟨d0, hd02, bs0, tree0, ?_, hpt0, ?_⟩
            · rw [Get_congr_noproxy _ c _ _ gfx hobsS hpn]
              exact hdata0
            · rw [treeNodesPresent_congr _ c tree0 hobsS]
              exact habs0
        · rw [hred]
          simp only [hrr, hrc, ite_true, Bool.false_eq_true, ite_false]
          refine ⟨hobsCD.trans (hobsFN.trans hobsGet), ?_, ?_⟩
          · intro e h
            cases h
          · intro _
            trivial
      · rw [hred]
        simp only [hrr, Bool.false_eq_true, ite_false]
        refine ⟨hobsFN.trans hobsGet, ?_, ?_⟩
        · intro e h
          cases h
        · intro _
          trivial

/-- At least one CAS digest referenced by the parsed action result is
reported absent: an output-file referent (empty inline contents, positive
size), a file referent inside the Tree a referenced tree blob parses to
(root or child directory), the stdout digest, or the stderr digest. -/
def absentReferent (parseTree : List Nat → Option PBTree) (gfx : GetFx)
    (c : DiskCache) (ar : PBActionResult) : Prop :=
  (∃ f ∈ ar.outputFiles, f.contents = [] ∧ 0 < f.digest.sizeBytes ∧
    (Contains c EntryKind.CAS f.digest.hash).2.1 = false) ∨
  (∃ d ∈ ar.outputDirectories, ∃ bs tree,
    (Get c EntryKind.CAS d.treeDigest.hash gfx).2.data = some bs ∧
    parseTree bs = some tree ∧ ¬ treeNodesPresent c tree) ∨
  (∃ dd, ar.stdoutDigest = some dd ∧ 0 < dd.sizeBytes ∧
    (Contains c EntryKind.CAS dd.hash).2.1 = false) ∨
  (∃ dd, ar.stderrDigest = some dd ∧ 0 < dd.sizeBytes ∧
    (Contains c EntryKind.CAS dd.hash).2.1 = false)

/-- C9: with no proxy configured, when the AC blob is served (positive size,
no error) and its ActionResult parses, and every referenced tree blob is
fetched cleanly (present, size matching, parseable), any referenced CAS
digest that `contains` reports absent makes the validator return the
not-found result — nil action result, nil bytes, nil error — rather than an
error; whereas a parse failure of the ActionResult propagates as an error. -/
theorem C9_validator_not_found (parseAR : List Nat → Option PBActionResult)
    (parseTree : List Nat → Option PBTree) (gfx : GetFx) (c : DiskCache)
    (hash : String) (acdata : List Nat) (szAC : Int)
    (hpn : c.proxy = none)
    (hget : (Get c EntryKind.AC hash gfx).2 = ⟨some acdata, szAC, none⟩)
    (hsz : 0 < szAC) :
    (∀ ar, parseAR acdata = some ar →
      (∀ d ∈ ar.outputDirectories, ∃ bs tree,
        (Get c EntryKind.CAS d.treeDigest.hash gfx).2 =
          ⟨some bs, d.treeDigest.sizeBytes, none⟩ ∧ parseTree bs = some tree) →
      absentReferent parseTree gfx c ar →
      (GetValidatedActionResult parseAR parseTree gfx c hash).2 = ValidateRes.notFound) ∧
    (parseAR acdata = none →
      (GetValidatedActionResult parseAR parseTree gfx c hash).2 =
        ValidateRes.fail CacheErr.parseErr) := by
  have hsle : ¬(szAC ≤ 0) := by omega
  have hobs1 : ObsEquiv (Get c EntryKind.AC hash gfx).1 c :=
    Get_obs_noproxy c EntryKind.AC hash gfx hpn
  constructor
  · intro ar hpar hclean habs
    have hobsR1 : ObsEquiv (checkOutputFiles (Get c EntryKind.AC hash gfx).1
        ar.outputFiles).1 c :=
      (checkOutputFiles_obs ar.outputFiles _).trans hobs1
    by_cases hr1 : (checkOutputFiles (Get c EntryKind.AC hash gfx).1 ar.outputFiles).2 = true
    · have hpn1 : (checkOutputFiles (Get c EntryKind.AC hash gfx).1 ar.outputFiles).1.proxy
          = none := hobsR1.2.2.trans hpn
      have hcleanT : ∀ d ∈ ar.outputDirectories, ∃ bs tree,
          (Get (checkOutputFiles (Get c EntryKind.AC hash gfx).1 ar.outputFiles).1
            EntryKind.CAS d.treeDigest.hash gfx).2 =
          ⟨some bs, d.treeDigest.sizeBytes, none⟩ ∧ parseTree bs = some tree := by
        intro d hd
        obtain ⟨bs, tree, hg, hp⟩ := hclean d hd
        refine ⟨bs, tree, ?_, hp⟩
        rw [Get_congr_noproxy _ c _ _ gfx hobsR1 hpn]
        exact hg
      obtain ⟨obsD, dA, dB⟩ := checkOutputDirs_spec parseTree gfx ar.outputDirectories
        (checkOutputFiles (Get c EntryKind.AC hash gfx).1 ar.outputFiles).1 hpn1 hcleanT
      have hobsR2 : ObsEquiv (checkOutputDirs parseTree gfx (checkOutputFiles
          (Get c EntryKind.AC hash gfx).1 ar.outputFiles).1 ar.outputDirectories).1 c :=
        obsD.trans hobsR1
      cases hstep : (checkOutputDirs parseTree gfx (checkOutputFiles
          (Get c EntryKind.AC hash gfx).1 ar.outputFiles).1 ar.outputDirectories).2 with
      | fail e => exact absurd hstep (dA e)
      | notFound =>
          simp only [GetValidatedActionResult, hget, hsle, ite_false, hpar, hr1,
            ite_true, hstep]
      | ok =>
          by_cases hr3 : (checkStdDigest (checkOutputDirs parseTree gfx (checkOutputFiles
              (Get c EntryKind.AC hash gfx).1 ar.outputFiles).1 ar.outputDirectories).1
              ar.stdoutDigest).2 = true
          · by_cases hr4 : (checkStdDigest (checkStdDigest (checkOutputDirs parseTree gfx
                (checkOutputFiles (Get c EntryKind.AC hash gfx).1 ar.outputFiles).1
                ar.outputDirectories).1 ar.stdoutDigest).1 ar.stderrDigest).2 = true
            · exfalso
              rcases habs with h1 | h2 | h3 | h4
              · obtain ⟨f, hf, hc1, hc2, hfalse⟩ := h1
                have h5 := checkOutputFiles_true_imp ar.outputFiles _ hr1 f hf hc1 hc2
                rw [Contains_congr _ c _ _ hobs1] at h5
                rw [h5] at hfalse
                cases hfalse
              · have h6 : (checkOutputDirs parseTree gfx (checkOutputFiles
                    (Get c EntryKind.AC hash gfx).1 ar.outputFiles).1
                    ar.outputDirectories).2 = StepRes.notFound := by
                  apply dB
                  obtain ⟨d, hd, bs, tree, hdata, hpt, habs2⟩ := h2
                  refine ⟨d, hd, bs, tree, ?_, hpt, ?_⟩
                  · rw [Get_congr_noproxy _ c _ _ gfx hobsR1 hpn]
                    exact hdata
                  · rw [treeNodesPresent_congr _ c tree hobsR1]
                    exact habs2
                rw [hstep] at h6
                cases h6
              · obtain ⟨dd, hdd, hddsz, hfalse⟩ := h3
                rw [hdd] at hr3
                have h7 := checkStdDigest_true_imp _ dd hr3 hddsz
                rw [Contains_congr _ c _ _ hobsR2] at h7
                rw [h7] at hfalse
                cases hfalse
              · obtain ⟨dd, hdd, hddsz, hfalse⟩ := h4
                rw [hdd] at hr4
                have hobsR3 : ObsEquiv (checkStdDigest (checkOutputDirs parseTree gfx
                    (checkOutputFiles (Get c EntryKind.AC hash gfx).1 ar.outputFiles).1
                    ar.outputDirectories).1 ar.stdoutDigest).1 c :=
                  (checkStdDigest_obs _ ar.stdoutDigest).trans hobsR2
                have h8 := checkStdDigest_true_imp _ dd hr4 hddsz
                rw [Contains_congr _ c _ _ hobsR3] at h8
                rw [h8] at hfalse
                cases hfalse
            · simp only [GetValidatedActionResult, hget, hsle, ite_false, hpar, hr1,
                ite_true, hstep, hr3, hr4, Bool.false_eq_true]
          · simp only [GetValidatedActionResult, hget, hsle, ite_false, hpar, hr1,
              ite_true, hstep, hr3, Bool.false_eq_true]
    · simp only [GetValidatedActionResult, hget, hsle, ite_false, hpar, hr1,
        Bool.false_eq_true]
  · intro hpar
    simp only [GetValidatedActionResult, hget, hsle, ite_false, hpar]

/-- Witness for C9: an AC entry whose parsed result references an absent
stdout digest makes the validator return not-found. -/
theorem C9_validator_not_found_witness :
    (GetValidatedActionResult
      (fun bs => if bs = [1] then some (PBActionResult.mk [] [] (some ⟨hashB, 1⟩) none)
        else none)
      (fun _ => none) getFxOk
      (DiskCache.mk ⟨10, 1, [(cacheKey EntryKind.AC hashA, ⟨1, true⟩)]⟩
        [(cacheKey EntryKind.AC hashA, [1])] none) hashA).2 = ValidateRes.notFound :=
  (C9_validator_not_found
    (fun bs => if bs = [1] then some (PBActionResult.mk [] [] (some ⟨hashB, 1⟩) none)
      else none)
    (fun _ => none) getFxOk
    (DiskCache.mk ⟨10, 1, [(cacheKey EntryKind.AC hashA, ⟨1, true⟩)]⟩
      [(cacheKey EntryKind.AC hashA, [1])] none) hashA [1] 1 rfl (by decide)
    (by norm_num)).1
    (PBActionResult.mk [] [] (some ⟨hashB, 1⟩) none) (by decide)
    (by intro d hd; cases hd)
    (Or.inr (Or.inr (Or.inl ⟨⟨hashB, 1⟩, rfl, by norm_num, by decide⟩)))
